import Mathlib

/-!
# pread.c (pixz): wanted-range resolver and block scheduler

A shallow embedding of `src/pread.c`.

* A C string (`char *`) is the list of its characters before the terminating
  NUL; the terminator is explicit only where the code moves a pointer over it
  (the trailing-slash loop of `wanted_files`).
* `size_t`, `off_t` and `lzma_vli` values are natural numbers; the one
  subtraction of the file (`w->end - w->start`) wraps modulo `2^64`.
* The linked lists `gFileIndex` and `gWantedFiles` are Lean lists; a `NULL`
  list is `[]`, and the cursor `w` of `read_thread` is the remaining suffix.
* `die` and a null-pointer dereference are the two ways a call can fail.
-/

namespace Pread

/-! ## C strings -/

/-- The characters of a C string, terminator excluded. -/
abbrev CStr := List Char

/-- The NUL character that terminates a C string. -/
def NUL : Char := Char.ofNat 0

/-- The memory a `char *` points to: the characters followed by the terminator. -/
def toBuffer (s : CStr) : List Char := s ++ [NUL]

/-- The C string stored in a buffer: everything before the first NUL. -/
def ofBuffer (buf : List Char) : CStr := buf.takeWhile (fun ch => ch != NUL)

/-- The loop `while (*c++) ;` started at the head of `buf`: the index `c` ends at,
one past the first NUL (the increment also runs on the iteration that reads NUL). -/
def forwardToEnd : List Char → Nat
  | [] => 0
  | ch :: rest => if ch = NUL then 1 else forwardToEnd rest + 1

/-- The loop `while (--c >= *spec && *c == '/') *c = '\0';` with `c` the index before
the first decrement; index `0` is `*spec`, so `--c >= *spec` fails exactly at `c = 0`. -/
def stripBack (buf : List Char) : Nat → List Char
  | 0 => buf
  | c + 1 => if buf.getD c NUL = '/' then stripBack (buf.set c NUL) c else buf

/-- The body of the loop "Remove trailing slashes from specs" for one spec:
the C string `*spec` holds after the two `while` loops ran on it. -/
def stripSpec (s : CStr) : CStr :=
  ofBuffer (stripBack (toBuffer s) (forwardToEnd (toBuffer s)))

/-- The inner `for (sc = *spec, nc = f->name; *sc; ++sc, ++nc)` loop: returns
`match` and the rest of the name at `nc` when the loop is left. -/
def specLoop : CStr → CStr → Bool × CStr
  | [], nc => (true, nc)
  | _ :: _, [] => (false, [])
  | s :: sc, n :: nc => if s ≠ n then (false, n :: nc) else specLoop sc nc

/-- The test `match && (!*nc || *nc == '/')` that follows the loop. -/
def specMatches (spec name : CStr) : Bool :=
  match specLoop spec name with
  | (m, nc) => m && (match nc with
      | [] => true
      | ch :: _ => ch == '/')

/-! ## Failure -/

/-- The two ways a call of this file stops without returning: `die(msg)`, or a
dereference of a null pointer (walking off a file index that has no sentinel). -/
inductive Fault where
  | die (msg : String)
  | nullDeref
  deriving DecidableEq

/-! ## The wanted-range resolver -/

/-- A node of `gFileIndex` (`file_index_t`, declared in `pixz.h`): `name` is
`NULL` (`none`) on the sentinel that ends the list. -/
structure file_index_t where
  name : Option CStr
  offset : Nat
  deriving DecidableEq

/-- A node of `gWantedFiles`; the field `end` of the source is `end_`
here, `next` is the tail of the Lean list. -/
structure wanted_t where
  name : CStr
  start : Nat
  end_ : Nat
  size : Nat
  deriving DecidableEq

/-- The subtraction `a - b` of two `size_t` values (64 bits). -/
def subSizeT (a b : Nat) : Nat := (a + 2 ^ 64 - b) % 2 ^ 64

/-- The node the match branch allocates:
`{ .name = f->name, .start = f->offset, .end = f->next->offset }`, then
`w->size = w->end - w->start`. -/
def mkWanted (name : CStr) (offset nextOffset : Nat) : wanted_t :=
  { name := name, start := offset, end_ := nextOffset, size := subSizeT nextOffset offset }

/-- The loop `for (char **spec = specs; spec < specs + count; ++spec)` over one
file: `true` when it reaches the branch that appends a range and breaks. -/
def wantsFile : List CStr → CStr → Bool
  | [], _ => false
  | spec :: rest, name => if specMatches spec name then true else wantsFile rest name

/-- The loop `for (file_index_t *f = gFileIndex; f->name; f = f->next)`; the
ranges are appended at `last`, so they come out in the order of the walk. -/
def wantedLoop (specs : List CStr) : List file_index_t → Except Fault (List wanted_t)
  | [] => .error .nullDeref
  | f :: rest =>
    match f.name with
    | none => .ok []
    | some name =>
      if wantsFile specs name then
        match rest with
        | [] => .error .nullDeref
        | nx :: _ =>
          match wantedLoop specs rest with
          | .error e => .error e
          | .ok ws => .ok (mkWanted name f.offset nx.offset :: ws)
      else wantedLoop specs rest

/-- The function `wanted_files(count, specs)`: the value it leaves in `gWantedFiles`
(`[]` is `NULL`), or the failure it ends in. `gFileIndexOffset` and
`gFileIndex` are the globals it reads. -/
def wanted_files (specs : List CStr) (gFileIndexOffset : Nat)
    (gFileIndex : List file_index_t) : Except Fault (List wanted_t) :=
  if specs.length = 0 then .ok []
  else if gFileIndexOffset = 0 then .error (.die "Can't filter non-tarball")
  else wantedLoop (specs.map stripSpec) gFileIndex

/-! ## Block descriptors and the block size survey -/

/-- The fields of `lzma_index_iter.block` the file reads. -/
structure Block where
  number_in_file : Nat
  compressed_file_offset : Nat
  total_size : Nat
  uncompressed_file_offset : Nat
  uncompressed_size : Nat
  deriving DecidableEq

/-- The guard `gFileIndexOffset && off == gFileIndexOffset` of both block loops. -/
def isFileIndexBlock (gFileIndexOffset : Nat) (b : Block) : Bool :=
  gFileIndexOffset != 0 && b.compressed_file_offset == gFileIndexOffset

/-- The function `set_block_sizes`: the loop over the blocks of `gIndex`, on the pair
`(gBlockInSize, gBlockOutSize)`. -/
def set_block_sizes (gFileIndexOffset : Nat) : List Block → Nat × Nat → Nat × Nat
  | [], sizes => sizes
  | b :: rest, (gBlockInSize, gBlockOutSize) =>
    if isFileIndexBlock gFileIndexOffset b then
      set_block_sizes gFileIndexOffset rest (gBlockInSize, gBlockOutSize)
    else
      let out := b.uncompressed_size
      let inp := b.total_size
      let gBlockOutSize := if out > gBlockOutSize then out else gBlockOutSize
      let gBlockInSize := if inp > gBlockInSize then inp else gBlockInSize
      set_block_sizes gFileIndexOffset rest (gBlockInSize, gBlockOutSize)

/-! ## The block scheduler -/

/-- The loop `for ( ; w && w->end < uend; w = w->next) ;`. -/
def advance (uend : Nat) : List wanted_t → List wanted_t
  | [] => []
  | w :: rest => if w.end_ < uend then advance uend rest else w :: rest

/-- The block `// Do we need this block?`: `none` when the loop body takes
`continue`, otherwise the cursor `w` after the body. `lzma_vli` values are at
most `2^63 - 1`, so the `size_t` sum `uend` does not wrap. -/
def needBlock (gWantedFiles w : List wanted_t) (b : Block) : Option (List wanted_t) :=
  if !gWantedFiles.isEmpty then
    let uend := b.uncompressed_file_offset + b.uncompressed_size
    match w with
    | [] => none
    | r :: _ => if r.start ≥ uend then none else some (advance uend w)
  else some w

/-- The call `fread(ib->input, 1, bsize, gInFile)` at file position `pos` of an input
that is `inSize` bytes long: the number of bytes read. -/
def fread (inSize pos bsize : Nat) : Nat := min bsize (inSize - pos)

/-- What `read_thread` did: the blocks handed to `pipeline_split`, in order, the
number of `fseeko` calls, the tracked `offset`, and the `die` that ended it. -/
structure ReadResult where
  dispatched : List Block
  seeks : Nat
  offset : Nat
  fault : Option Fault
  deriving DecidableEq

/-- The `while (!lzma_index_iter_next(...))` loop of `read_thread` over the
remaining blocks, from cursor `w` and tracked position `offset`. Acquiring the
buffer (`queue_pop`) only waits; it does not change what is dispatched. -/
def readLoop (gFileIndexOffset : Nat) (gWantedFiles : List wanted_t) (inSize : Nat) :
    List Block → List wanted_t → Nat → ReadResult
  | [], _, offset => { dispatched := [], seeks := 0, offset := offset, fault := none }
  | b :: rest, w, offset =>
    let boffset := b.compressed_file_offset
    let bsize := b.total_size
    if isFileIndexBlock gFileIndexOffset b then
      readLoop gFileIndexOffset gWantedFiles inSize rest w offset
    else
      match needBlock gWantedFiles w b with
      | none => readLoop gFileIndexOffset gWantedFiles inSize rest w offset
      | some w1 =>
        let seek := if offset ≠ boffset then 1 else 0
        if fread inSize boffset bsize < bsize then
          { dispatched := [], seeks := seek, offset := boffset,
            fault := some (.die "Error reading block contents") }
        else
          let r := readLoop gFileIndexOffset gWantedFiles inSize rest w1 (boffset + bsize)
          { dispatched := b :: r.dispatched, seeks := seek + r.seeks,
            offset := r.offset, fault := r.fault }

/-- The function `read_thread`: `offset = ftello(gInFile)`, `w = gWantedFiles`, then the loop. -/
def read_thread (gIndex : List Block) (gFileIndexOffset : Nat)
    (gWantedFiles : List wanted_t) (inSize ftello : Nat) : ReadResult :=
  readLoop gFileIndexOffset gWantedFiles inSize gIndex gWantedFiles ftello

/-! ## The run -/

/-- What `main` has after `read_file_index()`: the block index, the file index
and its block offset (`0` when the archive has none), and the input file's
length and read position. -/
structure Archive where
  gIndex : List Block
  gFileIndexOffset : Nat
  gFileIndex : List file_index_t
  inSize : Nat
  ftello : Nat
  deriving DecidableEq

/-- The sum of the uncompressed sizes of a list of blocks. -/
def totalOut (bs : List Block) : Nat := (bs.map (fun b => b.uncompressed_size)).sum

/-- What a run did: how it ended, the buffer sizes, the blocks read, the bytes written. -/
structure Outcome where
  fault : Option Fault
  blockSizes : Nat × Nat
  dispatched : List Block
  written : Nat
  deriving DecidableEq

/-- The body of `main` after option parsing: `wanted_files`, `set_block_sizes`,
then the pipeline. The decoder is a primitive that yields each dispatched
block's declared uncompressed size, and the writer loop writes every decoded
block, so `written` is the sum over the dispatched blocks. -/
def main (specs : List CStr) (a : Archive) : Outcome :=
  match wanted_files specs a.gFileIndexOffset a.gFileIndex with
  | .error e => { fault := some e, blockSizes := (0, 0), dispatched := [], written := 0 }
  | .ok gWantedFiles =>
    let sizes := set_block_sizes a.gFileIndexOffset a.gIndex (0, 0)
    let r := read_thread a.gIndex a.gFileIndexOffset gWantedFiles a.inSize a.ftello
    { fault := r.fault, blockSizes := sizes, dispatched := r.dispatched,
      written := totalOut r.dispatched }

/-! ## The archive of the scenarios -/

/-- Payload block B0, uncompressed `[0,100)`. -/
def B0 : Block := ⟨0, 12, 60, 0, 100⟩
/-- Payload block B1, uncompressed `[100,250)`, right after B0 in the file. -/
def B1 : Block := ⟨1, 72, 80, 100, 150⟩
/-- Payload block B2, uncompressed `[250,300)`, right after B1 in the file. -/
def B2 : Block := ⟨2, 152, 40, 250, 50⟩
/-- The block that stores the file index. -/
def BX : Block := ⟨3, 192, 48, 300, 64⟩

/-- The archive of the scenarios: `a.txt`, `b/c.txt`, `b/d.txt` in B0, B1, B2. -/
def demo : Archive :=
  { gIndex := [B0, B1, B2, BX]
    gFileIndexOffset := 192
    gFileIndex := [⟨some "a.txt".toList, 0⟩, ⟨some "b/c.txt".toList, 100⟩,
                   ⟨some "b/d.txt".toList, 250⟩, ⟨none, 300⟩]
    inSize := 300
    ftello := 12 }

/-! ## The decoder and the writer loop -/

/-- The return codes of liblzma as `decode_thread` tells them apart: `LZMA_OK`,
`LZMA_STREAM_END`, and every other code. -/
inductive lzma_ret where
  | LZMA_OK
  | LZMA_STREAM_END
  | other (code : Nat)
  deriving DecidableEq

/-- The answers of the liblzma calls on one block, taken as primitives:
`lzma_block_header_decode`, `lzma_block_decoder`, and for the call number `i` of
`lzma_code` its return code and the bytes it adds to the output buffer. -/
structure Codec where
  header_decode : lzma_ret
  block_decoder : lzma_ret
  code : Nat → lzma_ret × Nat

/-- How `decode_thread` leaves a ticket: `die(msg)`, or `queue_push` on the merge
queue with `ib->outsize` set. -/
inductive DecodeResult where
  | died (msg : String)
  | forwarded (outsize : Nat)
  deriving DecidableEq

/-- The loop `while (err != LZMA_STREAM_END)` of `decode_thread`, entered with `err`
after `calls` calls of `lzma_code` that produced `produced` bytes
(`stream.next_out - ib->output`); `none` when `fuel` iterations do not end it. -/
def codeLoop (code : Nat → lzma_ret × Nat) : Nat → lzma_ret → Nat → Nat → Option DecodeResult
  | 0, _, _, _ => none
  | fuel + 1, err, calls, produced =>
    if err = .LZMA_STREAM_END then some (.forwarded produced)
    else if err ≠ .LZMA_OK then some (.died "Error decoding block")
    else codeLoop code fuel (code calls).1 (calls + 1) (produced + (code calls).2)

/-- The body of the ticket loop of `decode_thread` for one ticket. -/
def decode_thread (c : Codec) (fuel : Nat) : Option DecodeResult :=
  if c.header_decode ≠ .LZMA_OK then some (.died "Error decoding block header")
  else if c.block_decoder ≠ .LZMA_OK then some (.died "Error initializing block decode")
  else codeLoop c.code fuel .LZMA_OK 0 0

/-- The bytes the calls number `calls`, ..., `calls + n - 1` of `lzma_code` produce. -/
def bytesProduced (code : Nat → lzma_ret × Nat) : Nat → Nat → Nat
  | _, 0 => 0
  | calls, n + 1 => (code calls).2 + bytesProduced code (calls + 1) n

/-- An item of the pipeline (`pipeline_item_t`, declared in `pixz.h`): its ticket
number and, for `data`, the block whose decoded output its buffer holds. -/
structure pipeline_item_t where
  seq : Nat
  data : Block
  deriving DecidableEq

/-- Modelled from the spec: the ticket numbering of `pipeline_split` (pipeline.c,
not among the sources here). Each dispatched item gets a fresh increasing
ticket number, so the tickets of a run are the dispatched blocks numbered
from `n` in dispatch order. -/
def tickets : Nat → List Block → List pipeline_item_t
  | _, [] => []
  | n, b :: rest => ⟨n, b⟩ :: tickets (n + 1) rest

/-- Modelled from the spec: the reordering buffer of `pipeline_merged` (pipeline.c,
not among the sources here). Out-of-order arrivals are held until the next
expected sequence number is available; `drain` hands out the held items
numbered `next`, `next + 1`, ... as long as they are there, and returns them
with the new expected number and what stays held. -/
def drain : Nat → Nat → List pipeline_item_t →
    List pipeline_item_t × Nat × List pipeline_item_t
  | 0, next, held => ([], next, held)
  | fuel + 1, next, held =>
    match held.find? (fun q => q.seq == next) with
    | none => ([], next, held)
    | some item =>
      let r := drain fuel (next + 1) (held.filter (fun q => q.seq != next))
      (item :: r.1, r.2.1, r.2.2)

/-- Modelled from the spec: the items the successive calls of `pipeline_merged`
(pipeline.c, not among the sources here) return, when the decoders push their
items on the merge queue in the order `arrivals`: each arrival joins the held
items, and whatever is then deliverable in ticket order is delivered. -/
def pipeline_merged : List pipeline_item_t → Nat → List pipeline_item_t →
    List pipeline_item_t
  | [], _, _ => []
  | item :: rest, next, held =>
    let r := drain (held.length + 1) next (item :: held)
    r.1 ++ pipeline_merged rest r.2.1 r.2.2

/-- The two effects of the writer loop of `main` on an item. -/
inductive WriterEvent where
  | fwrite (b : Block)
  | queue_push (item : pipeline_item_t)
  deriving DecidableEq

/-- The loop `while ((pi = pipeline_merged()))` of `main` over the items it is
handed: `fwrite` of the item's output, then `queue_push` of the item on
`gPipelineStartQ`, the pool of free buffers. -/
def writerLoop : List pipeline_item_t → List WriterEvent
  | [] => []
  | item :: rest => .fwrite item.data :: .queue_push item :: writerLoop rest

/-- The decoded blocks in the order they are written. -/
def writtenBlocks : List WriterEvent → List Block
  | [] => []
  | .fwrite b :: rest => b :: writtenBlocks rest
  | .queue_push _ :: rest => writtenBlocks rest

/-- One move of a decoder thread: `pop` is its `queue_pop` on `gPipelineSplitQ`,
`finish i` the `queue_push` on `gPipelineMergeQ` that ends the decode of the
item at place `i` among the items being decoded. -/
inductive DecoderStep where
  | pop
  | finish (i : Nat)
  deriving DecidableEq

/-- The decoder stage: the dispatched items not yet taken by a thread, the items
being decoded, and the items pushed on the merge queue, in push order. -/
structure DecoderStage where
  splitQ : List pipeline_item_t
  busy : List pipeline_item_t
  mergeQ : List pipeline_item_t
  deriving DecidableEq

/-- Modelled from the spec: the queues of pipeline.c (not among the sources here)
as the ticket loop of `decode_thread` uses them. With `num_threads` workers
sharing one intake queue, a free worker takes the oldest dispatched item, and
a worker that has decoded its item pushes it on the merge queue; a move that
is not possible leaves the stage as it is. -/
def decoderStep (num_threads : Nat) (st : DecoderStage) : DecoderStep → DecoderStage
  | .pop =>
    if st.busy.length < num_threads then
      match st.splitQ with
      | [] => st
      | item :: rest => { splitQ := rest, busy := st.busy ++ [item], mergeQ := st.mergeQ }
    else st
  | .finish i =>
    match st.busy.drop i with
    | [] => st
    | item :: post =>
      { splitQ := st.splitQ, busy := st.busy.take i ++ post, mergeQ := st.mergeQ ++ [item] }

/-- An interleaving of the decoder threads: their moves in the order they happen. -/
def runDecoders (num_threads : Nat) : List DecoderStep → DecoderStage → DecoderStage
  | [], st => st
  | step :: rest, st => runDecoders num_threads rest (decoderStep num_threads st step)

/-- The decoder stage when every dispatched item waits on the split queue. -/
def decoderStart (dispatched : List Block) : DecoderStage :=
  { splitQ := tickets 0 dispatched, busy := [], mergeQ := [] }

/-- Every `queue_push` of an item comes after the `fwrite` of its block;
`written` are the blocks written before the events. -/
def releasedAfterWritten : List Block → List WriterEvent → Bool
  | _, [] => true
  | written, .fwrite b :: rest => releasedAfterWritten (b :: written) rest
  | written, .queue_push item :: rest =>
    decide (item.data ∈ written) && releasedAfterWritten written rest

/-- A block whose codec answers `LZMA_OK` with 60 bytes, then `LZMA_STREAM_END`
with 40 more. -/
def codecDemo : Codec :=
  { header_decode := .LZMA_OK
    block_decoder := .LZMA_OK
    code := fun i => if i = 0 then (.LZMA_OK, 60) else (.LZMA_STREAM_END, 40) }

/-! ## Vocabulary of the claims -/

/-- A file index that is a run of named entries closed by one sentinel. -/
def sentinelTerminated : List file_index_t → Bool
  | [] => false
  | f :: rest =>
    match rest with
    | [] => f.name.isNone
    | _ :: _ => f.name.isSome && sentinelTerminated rest

/-- The ranges as the claim words them: every entry is paired with the entry
after it, the pairs whose name some spec matches are kept in index order, and
each kept pair gives one range from the entry's offset to the next offset. -/
def matchedRanges (specs : List CStr) (gFileIndex : List file_index_t) : List wanted_t :=
  (gFileIndex.zip gFileIndex.tail).filterMap (fun p =>
    match p.1.name with
    | none => none
    | some name =>
      if specs.any (fun spec => specMatches spec name) then
        some { name := name, start := p.1.offset, end_ := p.2.offset,
               size := subSizeT p.2.offset p.1.offset }
      else none)

/-- The offsets of a file index ascend, from the first entry to the sentinel. -/
def offsetsAscending (gFileIndex : List file_index_t) : Prop :=
  (gFileIndex.map (fun f => f.offset)).Sorted (fun a b => a ≤ b)

instance : DecidablePred offsetsAscending := fun idx => by
  unfold offsetsAscending; infer_instance

/-- A wanted list is ascending and non-overlapping: no range ends before it
starts, and each range ends at or before the start of the one after it. -/
def rangesAscending : List wanted_t → Bool
  | [] => true
  | w :: rest =>
    decide (w.start ≤ w.end_) &&
      (match rest with
        | [] => true
        | nx :: _ => decide (w.end_ ≤ nx.start)) &&
      rangesAscending rest

/-- The payload blocks: the descriptors that are not the file-index block, in
index order. A file-index offset of `0` says the archive has no such block. -/
def payloadBlocks (gFileIndexOffset : Nat) (gIndex : List Block) : List Block :=
  gIndex.filter (fun b => !isFileIndexBlock gFileIndexOffset b)

/-- The input file holds each of the blocks in full, so no read comes up short. -/
def intact (inSize : Nat) (blocks : List Block) : Prop :=
  ∀ b ∈ blocks, b.compressed_file_offset + b.total_size ≤ inSize

instance (inSize : Nat) : DecidablePred (intact inSize) := fun blocks => by
  unfold intact; infer_instance

/-- The blocks lie end to end in uncompressed space, the first at offset `o`. -/
def contiguousFrom : Nat → List Block → Bool
  | _, [] => true
  | o, b :: rest =>
    b.uncompressed_file_offset == o && contiguousFrom (o + b.uncompressed_size) rest

/-- The uncompressed extent of a block and a wanted range have a byte in common. -/
def overlaps (b : Block) (r : wanted_t) : Prop :=
  ∃ x, b.uncompressed_file_offset ≤ x ∧
    x < b.uncompressed_file_offset + b.uncompressed_size ∧ r.start ≤ x ∧ x < r.end_

/-- The sum of the `size` fields of a wanted list. -/
def totalWanted (ws : List wanted_t) : Nat := (ws.map (fun w => w.size)).sum

/-- The byte offsets covered by the ranges of a wanted list. -/
def rangePoints : List wanted_t → Finset Nat
  | [] => ∅
  | w :: rest => Finset.Ico w.start w.end_ ∪ rangePoints rest

/-- The byte offsets covered by the uncompressed extents of a list of blocks. -/
def blockPoints : List Block → Finset Nat
  | [] => ∅
  | b :: rest =>
    Finset.Ico b.uncompressed_file_offset (b.uncompressed_file_offset + b.uncompressed_size)
      ∪ blockPoints rest

/-- The seeks of a run as the claim words them: a block costs one `fseeko` exactly
when the tracked position differs from its compressed offset, and after the
block is read the tracked position is its offset plus its total size. -/
def seekCount : Nat → List Block → Nat
  | _, [] => 0
  | pos, b :: rest =>
    (if pos ≠ b.compressed_file_offset then 1 else 0) +
      seekCount (b.compressed_file_offset + b.total_size) rest

/-- The tracked position after the blocks were read one after the other. -/
def finalOffset : Nat → List Block → Nat
  | pos, [] => pos
  | _, b :: rest => finalOffset (b.compressed_file_offset + b.total_size) rest

/-- Every block starts, in the compressed file, at position `pos` and then where
the block before it ends. -/
def compressedContiguousFrom : Nat → List Block → Bool
  | _, [] => true
  | pos, b :: rest =>
    b.compressed_file_offset == pos &&
      compressedContiguousFrom (b.compressed_file_offset + b.total_size) rest

/-- The blocks are compressed-offset-contiguous: each one but the first starts
where the one before it ends. -/
def compressedContiguous : List Block → Bool
  | [] => true
  | b :: rest => compressedContiguousFrom (b.compressed_file_offset + b.total_size) rest

/-- The per-block scan the sweep is compared with: some range anywhere in the
wanted list has `start < uend` and `end >= ustart`. -/
def naiveScan (ws : List wanted_t) (b : Block) : Bool :=
  ws.any (fun r =>
    decide (r.start < b.uncompressed_file_offset + b.uncompressed_size) &&
      decide (r.end_ ≥ b.uncompressed_file_offset))

/-- The starts of a wanted list ascend. -/
def startsAscending (ws : List wanted_t) : Prop :=
  ws.Pairwise (fun a b => a.start ≤ b.start)

instance : DecidablePred startsAscending := fun ws => by
  unfold startsAscending; infer_instance

/-! ## Lemmas on C strings -/

theorem forwardToEnd_toBuffer (s : CStr) (h : NUL ∉ s) :
    forwardToEnd (toBuffer s) = s.length + 1 := by
  induction s with
  | nil => simp [toBuffer, forwardToEnd]
  | cons ch rest ih =>
    have hch : ch ≠ NUL := fun e => h (by simp [e])
    have hrest : NUL ∉ rest := fun m => h (List.mem_cons_of_mem _ m)
    have := ih hrest
    simp only [toBuffer] at this
    simp [toBuffer, forwardToEnd, hch, this]

theorem ofBuffer_toBuffer (s : CStr) (h : NUL ∉ s) : ofBuffer (toBuffer s) = s := by
  induction s with
  | nil => simp [toBuffer, ofBuffer, List.takeWhile]
  | cons ch rest ih =>
    have hch : ch ≠ NUL := fun e => h (by simp [e])
    have hrest : NUL ∉ rest := fun m => h (List.mem_cons_of_mem _ m)
    have := ih hrest
    simp only [toBuffer, ofBuffer] at this
    have hb : (ch != NUL) = true := by simp [hch]
    simp only [toBuffer, ofBuffer, List.cons_append, List.takeWhile_cons, hb, if_true, this]

/-- The trailing-slash loop leaves every C string as it was: its first
decrement puts `c` on the terminator, which is not a slash. -/
theorem stripSpec_eq_self (s : CStr) (h : NUL ∉ s) : stripSpec s = s := by
  have hget : (toBuffer s).getD s.length NUL = NUL := by
    simp [toBuffer, List.getD_eq_getElem?_getD]
  have hne : NUL ≠ '/' := by decide
  unfold stripSpec
  rw [forwardToEnd_toBuffer s h]
  simp only [stripBack, hget, hne, if_false]
  exact ofBuffer_toBuffer s h

theorem map_stripSpec_eq_self (specs : List CStr) (h : ∀ s ∈ specs, NUL ∉ s) :
    specs.map stripSpec = specs := by
  induction specs with
  | nil => rfl
  | cons s rest ih =>
    simp only [List.map_cons]
    rw [stripSpec_eq_self s (h s (by simp)), ih (fun t ht => h t (List.mem_cons_of_mem _ ht))]

theorem specMatches_nil (name : CStr) :
    specMatches [] name = true ↔ name = [] ∨ name.head? = some '/' := by
  cases name with
  | nil => simp [specMatches, specLoop]
  | cons ch rest => simp [specMatches, specLoop]

theorem specMatches_cons_nil (s : Char) (sc : CStr) : specMatches (s :: sc) [] = false := by
  simp [specMatches, specLoop]

theorem specMatches_cons_cons (s n : Char) (sc nc : CStr) :
    specMatches (s :: sc) (n :: nc) = if s = n then specMatches sc nc else false := by
  by_cases h : s = n
  · simp [specMatches, specLoop, h]
  · simp [specMatches, specLoop, h]

/-! ## C1: trailing separators -/

/-- C1 (the code at the failing input): on the scenario archive the spec `b/` keeps
its trailing slash through the strip loop and selects no member, while the
spec `b` selects `b/c.txt` and `b/d.txt`; the two WantedRange lists differ. -/
theorem C1_trailing_slash_not_stripped :
    stripSpec "b/".toList = "b/".toList ∧
    wanted_files ["b/".toList] demo.gFileIndexOffset demo.gFileIndex = .ok [] ∧
    wanted_files ["b".toList] demo.gFileIndexOffset demo.gFileIndex =
      .ok [⟨"b/c.txt".toList, 100, 250, 150⟩, ⟨"b/d.txt".toList, 250, 300, 50⟩] :=
  ⟨by decide, rfl, rfl⟩

/-! ## C2: directory-boundary matching -/

/-- C2: the match test of `wanted_files` accepts a spec and a member name exactly
when the spec is a literal prefix of the name and the name either ends right
after the prefix or has a slash as its next character; so `foo` selects `foo`
and `foo/bar` and does not select `foobar`. -/
theorem C2_specMatches_iff_prefix_at_dir_bound :
    (∀ spec name : CStr, specMatches spec name = true ↔
      spec <+: name ∧ (name.length = spec.length ∨ name.get? spec.length = some '/')) ∧
    specMatches "foo".toList "foo".toList = true ∧
    specMatches "foo".toList "foo/bar".toList = true ∧
    specMatches "foo".toList "foobar".toList = false := by
  refine ⟨?_, by decide, by decide, by decide⟩
  intro spec
  induction spec with
  | nil =>
    intro name
    rw [specMatches_nil]
    cases name with
    | nil => simp
    | cons ch rest => simp
  | cons s sc ih =>
    intro name
    cases name with
    | nil => simp [specMatches_cons_nil]
    | cons n nc =>
      rw [specMatches_cons_cons]
      by_cases h : s = n
      · subst h
        simp only [if_true, ih nc, List.cons_prefix_cons, true_and, List.length_cons,
          Nat.add_right_cancel_iff, List.get?_cons_succ]
      · simp [h, List.cons_prefix_cons]

/-! ## C3: the ranges `wanted_files` builds -/

theorem wantsFile_eq_any (specs : List CStr) (name : CStr) :
    wantsFile specs name = specs.any (fun spec => specMatches spec name) := by
  induction specs with
  | nil => rfl
  | cons spec rest ih =>
    simp only [wantsFile, List.any_cons, ih]
    cases specMatches spec name <;> simp

theorem wantedLoop_cons_cons (specs : List CStr) (f nx : file_index_t)
    (rest : List file_index_t) (name : CStr) (h : f.name = some name) :
    wantedLoop specs (f :: nx :: rest) =
      if wantsFile specs name then
        match wantedLoop specs (nx :: rest) with
        | .error e => .error e
        | .ok ws => .ok (mkWanted name f.offset nx.offset :: ws)
      else wantedLoop specs (nx :: rest) := by
  conv_lhs => unfold wantedLoop
  simp only [h]

theorem matchedRanges_cons_cons (specs : List CStr) (f nx : file_index_t)
    (rest : List file_index_t) (name : CStr) (h : f.name = some name) :
    matchedRanges specs (f :: nx :: rest) =
      if specs.any (fun spec => specMatches spec name) then
        mkWanted name f.offset nx.offset :: matchedRanges specs (nx :: rest)
      else matchedRanges specs (nx :: rest) := by
  by_cases hany : specs.any (fun spec => specMatches spec name) = true
  · simp only [matchedRanges, List.tail_cons, List.zip_cons_cons, List.filterMap_cons, h, hany,
      if_true, mkWanted]
  · simp only [matchedRanges, List.tail_cons, List.zip_cons_cons, List.filterMap_cons, h, hany,
      if_false]
    simp

theorem wantedLoop_eq_matchedRanges (specs : List CStr) (idx : List file_index_t)
    (h : sentinelTerminated idx = true) :
    wantedLoop specs idx = .ok (matchedRanges specs idx) := by
  induction idx with
  | nil => simp [sentinelTerminated] at h
  | cons f rest ih =>
    cases rest with
    | nil =>
      simp only [sentinelTerminated, Option.isNone_iff_eq_none] at h
      simp [wantedLoop, matchedRanges, h]
    | cons nx rest2 =>
      simp only [sentinelTerminated, Bool.and_eq_true, Option.isSome_iff_exists] at h
      obtain ⟨⟨name, hname⟩, hrest⟩ := h
      have ih2 := ih (by simpa [sentinelTerminated] using hrest)
      rw [wantedLoop_cons_cons specs f nx rest2 name hname,
        matchedRanges_cons_cons specs f nx rest2 name hname, ih2, wantsFile_eq_any]
      split <;> rfl

theorem any_specMatches_perm (specs1 specs2 : List CStr) (h : specs1.Perm specs2)
    (name : CStr) :
    specs1.any (fun spec => specMatches spec name) =
      specs2.any (fun spec => specMatches spec name) := by
  rw [Bool.eq_iff_iff]
  simp only [List.any_eq_true]
  constructor
  · rintro ⟨x, hx, hm⟩
    exact ⟨x, h.mem_iff.mp hx, hm⟩
  · rintro ⟨x, hx, hm⟩
    exact ⟨x, h.mem_iff.mpr hx, hm⟩

theorem matchedRanges_perm (specs1 specs2 : List CStr) (h : specs1.Perm specs2)
    (idx : List file_index_t) : matchedRanges specs1 idx = matchedRanges specs2 idx := by
  unfold matchedRanges
  congr 1
  funext p
  cases p.1.name with
  | none => rfl
  | some name => simp only [any_specMatches_perm specs1 specs2 h name]

/-- C3: for a non-empty list of specs and a sentinel-terminated file index,
`wanted_files` returns exactly the entries that some spec matches, in file-index
order, one range per such entry, with the entry's name, `start` its offset,
`end` the next entry's offset and `size = end - start` (the `size_t` difference,
which is the plain difference whenever `start <= end`); giving the specs in
another order gives the same list. -/
theorem C3_wanted_files_eq_matchedRanges (specs : List CStr) (gFileIndexOffset : Nat)
    (gFileIndex : List file_index_t)
    (hspecs : specs ≠ []) (hcstr : ∀ spec ∈ specs, NUL ∉ spec)
    (hoff : gFileIndexOffset ≠ 0) (hidx : sentinelTerminated gFileIndex = true) :
    wanted_files specs gFileIndexOffset gFileIndex = .ok (matchedRanges specs gFileIndex) ∧
    (∀ w ∈ matchedRanges specs gFileIndex,
      w.size = subSizeT w.end_ w.start ∧
      (w.start ≤ w.end_ → w.end_ < 2 ^ 64 → w.size = w.end_ - w.start)) ∧
    (∀ specs2 : List CStr, specs2.Perm specs →
      wanted_files specs2 gFileIndexOffset gFileIndex =
        wanted_files specs gFileIndexOffset gFileIndex) := by
  have hlen : specs.length ≠ 0 := fun h => hspecs (List.length_eq_zero.mp h)
  have main1 : wanted_files specs gFileIndexOffset gFileIndex =
      .ok (matchedRanges specs gFileIndex) := by
    simp only [wanted_files, hlen, hoff, if_false, map_stripSpec_eq_self specs hcstr]
    exact wantedLoop_eq_matchedRanges specs gFileIndex hidx
  refine ⟨main1, ?_, ?_⟩
  · intro w hw
    have hsz : w.size = subSizeT w.end_ w.start := by
      simp only [matchedRanges, List.mem_filterMap] at hw
      obtain ⟨p, _, hp⟩ := hw
      cases hn : p.1.name with
      | none => simp [hn] at hp
      | some name =>
        simp only [hn] at hp
        split at hp
        · simp only [Option.some.injEq] at hp
          rw [← hp]
        · simp at hp
    refine ⟨hsz, fun hle hlt => ?_⟩
    rw [hsz]
    unfold subSizeT
    have h1 : w.end_ + 2 ^ 64 - w.start = (w.end_ - w.start) + 2 ^ 64 := by omega
    rw [h1, Nat.add_mod_right]
    exact Nat.mod_eq_of_lt (by omega)
  · intro specs2 hperm
    have hlen2 : specs2.length ≠ 0 := by rw [hperm.length_eq]; exact hlen
    have hcstr2 : ∀ spec ∈ specs2, NUL ∉ spec := fun t ht => hcstr t (hperm.mem_iff.mp ht)
    rw [main1]
    simp only [wanted_files, hlen2, hoff, if_false, map_stripSpec_eq_self specs2 hcstr2]
    rw [wantedLoop_eq_matchedRanges specs2 gFileIndex hidx,
      matchedRanges_perm specs2 specs hperm]

/-- C3 at the scenario archive with the specs `b` and `b/c.txt`, which both
match `b/c.txt`: one range for it, then one for `b/d.txt`. -/
theorem C3_wanted_files_eq_matchedRanges_witness :
    wanted_files ["b".toList, "b/c.txt".toList] demo.gFileIndexOffset demo.gFileIndex =
      .ok [⟨"b/c.txt".toList, 100, 250, 150⟩, ⟨"b/d.txt".toList, 250, 300, 50⟩] :=
  (C3_wanted_files_eq_matchedRanges ["b".toList, "b/c.txt".toList] demo.gFileIndexOffset
    demo.gFileIndex (by decide) (by decide) (by decide) (by decide)).1

/-! ## C4: the ranges are ascending and disjoint -/

theorem matchedRanges_bounds (specs : List CStr) (idx : List file_index_t)
    (hidx : sentinelTerminated idx = true) (hasc : offsetsAscending idx) :
    (∀ w ∈ matchedRanges specs idx,
      w.start ≤ w.end_ ∧ ∀ f ∈ idx.head?, f.offset ≤ w.start) ∧
    (matchedRanges specs idx).Pairwise (fun a b => a.end_ ≤ b.start) := by
  induction idx with
  | nil => simp [sentinelTerminated] at hidx
  | cons f rest ih =>
    cases rest with
    | nil => simp [matchedRanges]
    | cons nx rest2 =>
      simp only [sentinelTerminated, Bool.and_eq_true, Option.isSome_iff_exists] at hidx
      obtain ⟨⟨name, hname⟩, hrest⟩ := hidx
      have hasc2 : offsetsAscending (nx :: rest2) := by
        unfold offsetsAscending at hasc ⊢
        simp only [List.map_cons] at hasc ⊢
        exact (List.sorted_cons.mp hasc).2
      have hle : f.offset ≤ nx.offset := by
        unfold offsetsAscending at hasc
        simp only [List.map_cons] at hasc
        exact (List.sorted_cons.mp hasc).1 _ (by simp)
      obtain ⟨ih1, ih2⟩ := ih (by simpa [sentinelTerminated] using hrest) hasc2
      have ih1s : ∀ w ∈ matchedRanges specs (nx :: rest2), nx.offset ≤ w.start :=
        fun w hw => (ih1 w hw).2 nx (by simp)
      rw [matchedRanges_cons_cons specs f nx rest2 name hname]
      split
      · refine ⟨?_, ?_⟩
        · intro w hw
          rcases List.mem_cons.mp hw with rfl | hw
          · exact ⟨hle, fun g hg => by simp at hg; subst hg; exact le_refl _⟩
          · exact ⟨(ih1 w hw).1, fun g hg => by
              simp at hg; subst hg; exact le_trans hle (ih1s w hw)⟩
        · exact List.Pairwise.cons (fun w hw => ih1s w hw) ih2
      · refine ⟨?_, ih2⟩
        intro w hw
        exact ⟨(ih1 w hw).1, fun g hg => by
          simp at hg; subst hg; exact le_trans hle (ih1s w hw)⟩

/-- C4: for a non-empty list of specs and a sentinel-terminated file index whose
offsets ascend up to and including the sentinel, `wanted_files` returns a list
that is sorted ascending by `start` and non-overlapping: every range has
`start <= end`, and each range's `end` is at most the `start` of the range
after it. -/
theorem C4_wanted_files_sorted_disjoint (specs : List CStr) (gFileIndexOffset : Nat)
    (gFileIndex : List file_index_t)
    (hspecs : specs ≠ []) (hoff : gFileIndexOffset ≠ 0)
    (hidx : sentinelTerminated gFileIndex = true) (hasc : offsetsAscending gFileIndex) :
    ∃ ws, wanted_files specs gFileIndexOffset gFileIndex = .ok ws ∧
      (ws.map (fun w => w.start)).Sorted (fun a b => a ≤ b) ∧
      (∀ w ∈ ws, w.start ≤ w.end_) ∧
      ws.Chain' (fun a b => a.end_ ≤ b.start) := by
  have hlen : specs.length ≠ 0 := fun h => hspecs (List.length_eq_zero.mp h)
  refine ⟨matchedRanges (specs.map stripSpec) gFileIndex, ?_, ?_, ?_, ?_⟩
  · simp only [wanted_files, hlen, hoff, if_false]
    exact wantedLoop_eq_matchedRanges _ gFileIndex hidx
  all_goals obtain ⟨h1, h2⟩ := matchedRanges_bounds (specs.map stripSpec) gFileIndex hidx hasc
  · unfold List.Sorted
    rw [List.pairwise_map]
    exact h2.imp_of_mem (fun {a b} ha _ hab => le_trans (h1 a ha).1 hab)
  · exact fun w hw => (h1 w hw).1
  · exact List.Pairwise.chain' h2

/-- C4 at the scenario archive with the specs given as `b`, `a.txt`: the list
comes out in file-index order and is ascending and disjoint. -/
theorem C4_wanted_files_sorted_disjoint_witness :
    ∃ ws, wanted_files ["b".toList, "a.txt".toList] demo.gFileIndexOffset demo.gFileIndex
        = .ok ws ∧
      (ws.map (fun w => w.start)).Sorted (fun a b => a ≤ b) ∧
      (∀ w ∈ ws, w.start ≤ w.end_) ∧
      ws.Chain' (fun a b => a.end_ ≤ b.start) :=
  C4_wanted_files_sorted_disjoint ["b".toList, "a.txt".toList] demo.gFileIndexOffset
    demo.gFileIndex (by decide) (by decide) (by decide) (by decide)

/-! ## Lemmas on the block loops -/

theorem fread_full (inSize pos bsize : Nat) (h : pos + bsize ≤ inSize) :
    ¬ fread inSize pos bsize < bsize := by
  unfold fread
  have : bsize ≤ inSize - pos := by omega
  rw [Nat.min_eq_left this]
  exact Nat.lt_irrefl _

theorem payloadBlocks_cons_fileIndex (fio : Nat) (b : Block) (rest : List Block)
    (h : isFileIndexBlock fio b = true) :
    payloadBlocks fio (b :: rest) = payloadBlocks fio rest := by
  simp [payloadBlocks, h]

theorem payloadBlocks_cons_payload (fio : Nat) (b : Block) (rest : List Block)
    (h : isFileIndexBlock fio b = false) :
    payloadBlocks fio (b :: rest) = b :: payloadBlocks fio rest := by
  simp [payloadBlocks, h]

/-- With non-zero compressed offsets the payload blocks are the descriptors
whose compressed offset differs from the file-index offset. -/
theorem payloadBlocks_eq_filter_ne (fio : Nat) (blocks : List Block)
    (h : ∀ b ∈ blocks, b.compressed_file_offset ≠ 0) :
    payloadBlocks fio blocks =
      blocks.filter (fun b => decide (b.compressed_file_offset ≠ fio)) := by
  unfold payloadBlocks
  apply List.filter_congr
  intro b hb
  have hb0 := h b hb
  by_cases h0 : fio = 0
  · subst h0
    simp [isFileIndexBlock, hb0]
  · by_cases he : b.compressed_file_offset = fio
    · simp [isFileIndexBlock, h0, he]
    · simp [isFileIndexBlock, h0, he]

theorem readLoop_unfiltered (fio inSize : Nat) (blocks : List Block)
    (hin : intact inSize (payloadBlocks fio blocks)) (w : List wanted_t) (offset : Nat) :
    (readLoop fio [] inSize blocks w offset).dispatched = payloadBlocks fio blocks ∧
    (readLoop fio [] inSize blocks w offset).fault = none := by
  induction blocks generalizing w offset with
  | nil => simp [readLoop, payloadBlocks]
  | cons b rest ih =>
    cases hfi : isFileIndexBlock fio b with
    | true =>
      rw [payloadBlocks_cons_fileIndex fio b rest hfi] at hin ⊢
      simp only [readLoop, hfi, if_true]
      exact ih hin w offset
    | false =>
      rw [payloadBlocks_cons_payload fio b rest hfi] at hin ⊢
      have hb := fread_full inSize _ _ (hin b (by simp))
      have hrest : intact inSize (payloadBlocks fio rest) :=
        fun c hc => hin c (List.mem_cons_of_mem _ hc)
      obtain ⟨ih1, ih2⟩ := ih hrest w (b.compressed_file_offset + b.total_size)
      simp only [readLoop, hfi, needBlock, List.isEmpty_nil, Bool.not_true, hb, if_false,
        Bool.false_eq_true, ih1, ih2, and_self]

/-! ## C5: a block past the wanted range is dispatched -/

/-- C5 (the code at the failing input): on blocks B0 `[0,100)`, B1 `[100,250)`,
B2 `[250,300)` with the single wanted range `[0,100)`, `read_thread` dispatches
B0 and then B1, although B1 starts where the range ends; the run for the spec
`a.txt` writes 250 bytes. -/
theorem C5_read_thread_dispatches_block_after_range :
    (read_thread [B0, B1, B2] 0 [⟨"a.txt".toList, 0, 100, 100⟩] 300 12).dispatched
      = [B0, B1] ∧
    (read_thread [B0, B1, B2] 0 [⟨"a.txt".toList, 0, 100, 100⟩] 300 12).fault = none ∧
    B1.uncompressed_file_offset = 100 ∧
    (main ["a.txt".toList] demo).dispatched = [B0, B1] ∧
    (main ["a.txt".toList] demo).written = 250 := by
  decide

/-! ## C7: specs that match nothing -/

/-- C7 (the code at the failing input): for the spec `nosuch`, which matches no
member of the scenario archive, `wanted_files` leaves the wanted list empty and
the run dispatches B0, B1, B2 and writes 300 bytes, the same as the run with no
specs. -/
theorem C7_zero_match_runs_unfiltered :
    wanted_files ["nosuch".toList] demo.gFileIndexOffset demo.gFileIndex = .ok [] ∧
    (main ["nosuch".toList] demo).dispatched = [B0, B1, B2] ∧
    (main ["nosuch".toList] demo).written = 300 ∧
    main ["nosuch".toList] demo = main [] demo :=
  ⟨rfl, by decide, by decide, by decide⟩

/-! ## C8: unfiltered extraction -/

/-- C8: with no specs, on an input file that holds every payload block in full,
`read_thread` dispatches exactly the descriptors that are not the file-index
block, each once and in index order, and ends without a fault; the run writes
the sum of the uncompressed sizes of the payload blocks. With non-zero
compressed offsets the payload blocks are the descriptors whose compressed
offset is not the file-index offset. -/
theorem C8_unfiltered_dispatches_every_payload_block (a : Archive)
    (hin : intact a.inSize (payloadBlocks a.gFileIndexOffset a.gIndex)) :
    wanted_files [] a.gFileIndexOffset a.gFileIndex = .ok [] ∧
    (read_thread a.gIndex a.gFileIndexOffset [] a.inSize a.ftello).dispatched
      = payloadBlocks a.gFileIndexOffset a.gIndex ∧
    (read_thread a.gIndex a.gFileIndexOffset [] a.inSize a.ftello).fault = none ∧
    (main [] a).dispatched = payloadBlocks a.gFileIndexOffset a.gIndex ∧
    (main [] a).fault = none ∧
    (main [] a).written = totalOut (payloadBlocks a.gFileIndexOffset a.gIndex) ∧
    ((∀ b ∈ a.gIndex, b.compressed_file_offset ≠ 0) →
      payloadBlocks a.gFileIndexOffset a.gIndex =
        a.gIndex.filter (fun b => decide (b.compressed_file_offset ≠ a.gFileIndexOffset))) := by
  obtain ⟨h1, h2⟩ := readLoop_unfiltered a.gFileIndexOffset a.inSize a.gIndex hin [] a.ftello
  have hw : wanted_files [] a.gFileIndexOffset a.gFileIndex = .ok [] := by
    simp [wanted_files]
  refine ⟨hw, h1, h2, ?_, ?_, ?_, payloadBlocks_eq_filter_ne _ _⟩
  · simp only [main, hw]; exact h1
  · simp only [main, hw]; exact h2
  · simp only [main, hw, read_thread, h1]

/-- C8 at the scenario archive: the run with no specs dispatches B0, B1, B2 and
not the file-index block, 300 bytes. -/
theorem C8_unfiltered_dispatches_every_payload_block_witness :
    (main [] demo).dispatched = [B0, B1, B2] ∧ (main [] demo).written = 300 :=
  have h := C8_unfiltered_dispatches_every_payload_block demo (by decide)
  ⟨h.2.2.2.1.trans (by decide), h.2.2.2.2.2.1.trans (by decide)⟩

/-! ## C9: when `wanted_files` fails -/

theorem wantedLoop_ne_die (specs : List CStr) (idx : List file_index_t) (msg : String) :
    wantedLoop specs idx ≠ .error (.die msg) := by
  induction idx with
  | nil => simp [wantedLoop]
  | cons f rest ih =>
    cases hname : f.name with
    | none => simp [wantedLoop, hname]
    | some name =>
      cases rest with
      | nil =>
        by_cases hw : wantsFile specs name = true
        · simp [wantedLoop, hname, hw]
        · simp [wantedLoop, hname, hw]
      | cons nx rest2 =>
        rw [wantedLoop_cons_cons specs f nx rest2 name hname]
        split
        · cases hrec : wantedLoop specs (nx :: rest2) with
          | error e =>
            intro hc
            simp only [Except.error.injEq] at hc
            exact ih (by rw [hrec, hc])
          | ok ws => simp
        · exact ih

/-- C9: `wanted_files` ends in `die` exactly when at least one spec is given and
the file-index offset is 0; the run then stops with the buffer sizes still
`(0, 0)`, no block read and nothing written. With no specs it returns the
empty wanted list whatever the archive, and with specs, a file index and its
sentinel it returns a list. -/
theorem C9_wanted_files_dies_iff_specs_and_no_file_index (specs : List CStr) (a : Archive) :
    ((∃ msg, wanted_files specs a.gFileIndexOffset a.gFileIndex = .error (.die msg)) ↔
      (specs ≠ [] ∧ a.gFileIndexOffset = 0)) ∧
    (specs ≠ [] ∧ a.gFileIndexOffset = 0 →
      main specs a = { fault := some (.die "Can't filter non-tarball"),
                       blockSizes := (0, 0), dispatched := [], written := 0 }) ∧
    (specs = [] → wanted_files specs a.gFileIndexOffset a.gFileIndex = .ok []) ∧
    (a.gFileIndexOffset ≠ 0 → sentinelTerminated a.gFileIndex = true →
      ∃ ws, wanted_files specs a.gFileIndexOffset a.gFileIndex = .ok ws) := by
  refine ⟨⟨?_, ?_⟩, ?_, ?_, ?_⟩
  · rintro ⟨msg, hmsg⟩
    by_cases hlen : specs.length = 0
    · simp [wanted_files, hlen] at hmsg
    · have hne : specs ≠ [] := fun h => hlen (by simp [h])
      by_cases hoff : a.gFileIndexOffset = 0
      · exact ⟨hne, hoff⟩
      · simp only [wanted_files, hlen, hoff, if_false] at hmsg
        exact absurd hmsg (wantedLoop_ne_die _ _ _)
  · rintro ⟨hne, hoff⟩
    have hlen : specs.length ≠ 0 := fun h => hne (List.length_eq_zero.mp h)
    exact ⟨"Can't filter non-tarball", by
      simp only [wanted_files, hlen, hoff, if_false, if_true]⟩
  · rintro ⟨hne, hoff⟩
    have hlen : specs.length ≠ 0 := fun h => hne (List.length_eq_zero.mp h)
    simp only [main, wanted_files, hlen, hoff, if_false, if_true]
  · intro h
    simp [wanted_files, h]
  · intro hoff hidx
    by_cases hlen : specs.length = 0
    · exact ⟨[], by simp [wanted_files, hlen]⟩
    · exact ⟨_, by
        simp only [wanted_files, hlen, hoff, if_false]
        exact wantedLoop_eq_matchedRanges _ _ hidx⟩

/-- C9 on an archive without a file index: the spec `b` makes the run die with
no block read, and no spec at all leaves the wanted list empty. -/
theorem C9_wanted_files_dies_iff_specs_and_no_file_index_witness :
    main ["b".toList] { gIndex := [B0, B1, B2], gFileIndexOffset := 0, gFileIndex := [],
                        inSize := 300, ftello := 12 }
      = { fault := some (.die "Can't filter non-tarball"),
          blockSizes := (0, 0), dispatched := [], written := 0 } ∧
    wanted_files [] 0 [] = .ok [] :=
  ⟨(C9_wanted_files_dies_iff_specs_and_no_file_index ["b".toList]
      { gIndex := [B0, B1, B2], gFileIndexOffset := 0, gFileIndex := [],
        inSize := 300, ftello := 12 }).2.1 ⟨by decide, rfl⟩,
   (C9_wanted_files_dies_iff_specs_and_no_file_index []
      { gIndex := [B0, B1, B2], gFileIndexOffset := 0, gFileIndex := [],
        inSize := 300, ftello := 12 }).2.2.1 rfl⟩

/-! ## C10: the block size survey -/

theorem set_block_sizes_ge (fio : Nat) (blocks : List Block) (acc : Nat × Nat) :
    acc.1 ≤ (set_block_sizes fio blocks acc).1 ∧
    acc.2 ≤ (set_block_sizes fio blocks acc).2 ∧
    ∀ b ∈ payloadBlocks fio blocks,
      b.total_size ≤ (set_block_sizes fio blocks acc).1 ∧
      b.uncompressed_size ≤ (set_block_sizes fio blocks acc).2 := by
  induction blocks generalizing acc with
  | nil => simp [set_block_sizes, payloadBlocks]
  | cons b rest ih =>
    obtain ⟨i, o⟩ := acc
    cases hfi : isFileIndexBlock fio b with
    | true =>
      rw [payloadBlocks_cons_fileIndex fio b rest hfi]
      simp only [set_block_sizes, hfi, if_true]
      exact ih (i, o)
    | false =>
      rw [payloadBlocks_cons_payload fio b rest hfi]
      simp only [set_block_sizes, hfi, Bool.false_eq_true, if_false]
      have hi : i ≤ (if b.total_size > i then b.total_size else i) ∧
          b.total_size ≤ (if b.total_size > i then b.total_size else i) := by
        split <;> omega
      have ho : o ≤ (if b.uncompressed_size > o then b.uncompressed_size else o) ∧
          b.uncompressed_size ≤ (if b.uncompressed_size > o then b.uncompressed_size else o) := by
        split <;> omega
      generalize (if b.total_size > i then b.total_size else i) = i2 at hi ⊢
      generalize (if b.uncompressed_size > o then b.uncompressed_size else o) = o2 at ho ⊢
      obtain ⟨h1, h2, h3⟩ := ih (i2, o2)
      simp only at h1 h2
      refine ⟨by omega, by omega, ?_⟩
      intro c hc
      rcases List.mem_cons.mp hc with rfl | hc
      · exact ⟨by omega, by omega⟩
      · exact h3 c hc

theorem set_block_sizes_attained (fio : Nat) (blocks : List Block) (acc : Nat × Nat) :
    ((set_block_sizes fio blocks acc).1 = acc.1 ∨
      ∃ b ∈ payloadBlocks fio blocks, b.total_size = (set_block_sizes fio blocks acc).1) ∧
    ((set_block_sizes fio blocks acc).2 = acc.2 ∨
      ∃ b ∈ payloadBlocks fio blocks,
        b.uncompressed_size = (set_block_sizes fio blocks acc).2) := by
  induction blocks generalizing acc with
  | nil => simp [set_block_sizes]
  | cons b rest ih =>
    obtain ⟨i, o⟩ := acc
    cases hfi : isFileIndexBlock fio b with
    | true =>
      rw [payloadBlocks_cons_fileIndex fio b rest hfi]
      simp only [set_block_sizes, hfi, if_true]
      exact ih (i, o)
    | false =>
      rw [payloadBlocks_cons_payload fio b rest hfi]
      simp only [set_block_sizes, hfi, Bool.false_eq_true, if_false]
      obtain ⟨h1, h2⟩ := ih (if b.total_size > i then b.total_size else i,
        if b.uncompressed_size > o then b.uncompressed_size else o)
      simp only at h1 h2
      constructor
      · rcases h1 with h1 | ⟨c, hc, hceq⟩
        · by_cases hgt : b.total_size > i
          · exact Or.inr ⟨b, by simp, by rw [h1, if_pos hgt]⟩
          · exact Or.inl (by rw [h1, if_neg hgt])
        · exact Or.inr ⟨c, List.mem_cons_of_mem _ hc, hceq⟩
      · rcases h2 with h2 | ⟨c, hc, hceq⟩
        · by_cases hgt : b.uncompressed_size > o
          · exact Or.inr ⟨b, by simp, by rw [h2, if_pos hgt]⟩
          · exact Or.inl (by rw [h2, if_neg hgt])
        · exact Or.inr ⟨c, List.mem_cons_of_mem _ hc, hceq⟩

/-- C10: started from `(0, 0)`, `set_block_sizes` returns `(maxIn, maxOut)` with
`maxIn` an upper bound of the total compressed sizes and `maxOut` an upper
bound of the uncompressed sizes of the payload blocks, each attained by a
payload block when there is one, and `(0, 0)` when there is none. With
non-zero compressed offsets the payload blocks are the descriptors whose
compressed offset is not the file-index offset. -/
theorem C10_set_block_sizes_is_max_over_payload (gFileIndexOffset : Nat) (gIndex : List Block) :
    (∀ b ∈ payloadBlocks gFileIndexOffset gIndex,
      b.total_size ≤ (set_block_sizes gFileIndexOffset gIndex (0, 0)).1 ∧
      b.uncompressed_size ≤ (set_block_sizes gFileIndexOffset gIndex (0, 0)).2) ∧
    (payloadBlocks gFileIndexOffset gIndex ≠ [] →
      (∃ b ∈ payloadBlocks gFileIndexOffset gIndex,
        b.total_size = (set_block_sizes gFileIndexOffset gIndex (0, 0)).1) ∧
      (∃ b ∈ payloadBlocks gFileIndexOffset gIndex,
        b.uncompressed_size = (set_block_sizes gFileIndexOffset gIndex (0, 0)).2)) ∧
    (payloadBlocks gFileIndexOffset gIndex = [] →
      set_block_sizes gFileIndexOffset gIndex (0, 0) = (0, 0)) ∧
    ((∀ b ∈ gIndex, b.compressed_file_offset ≠ 0) →
      payloadBlocks gFileIndexOffset gIndex =
        gIndex.filter (fun b => decide (b.compressed_file_offset ≠ gFileIndexOffset))) := by
  obtain ⟨_, _, hub⟩ := set_block_sizes_ge gFileIndexOffset gIndex (0, 0)
  obtain ⟨hat1, hat2⟩ := set_block_sizes_attained gFileIndexOffset gIndex (0, 0)
  refine ⟨hub, ?_, ?_, payloadBlocks_eq_filter_ne _ _⟩
  · intro hne
    obtain ⟨c, hc⟩ := List.exists_mem_of_ne_nil _ hne
    constructor
    · rcases hat1 with h0 | h
      · exact ⟨c, hc, by have := (hub c hc).1; simp only at h0; omega⟩
      · exact h
    · rcases hat2 with h0 | h
      · exact ⟨c, hc, by have := (hub c hc).2; simp only at h0; omega⟩
      · exact h
  · intro hnil
    rcases hat1 with h1 | ⟨c, hc, _⟩
    · rcases hat2 with h2 | ⟨c, hc, _⟩
      · exact Prod.ext h1 h2
      · rw [hnil] at hc; simp at hc
    · rw [hnil] at hc; simp at hc

/-- C10 at the scenario archive: the sizes are `(80, 150)`, those of B1, and the
file-index block, the largest in neither, is left out. -/
theorem C10_set_block_sizes_is_max_over_payload_witness :
    set_block_sizes demo.gFileIndexOffset demo.gIndex (0, 0) = (80, 150) ∧
    (∃ b ∈ payloadBlocks demo.gFileIndexOffset demo.gIndex,
      b.total_size = (set_block_sizes demo.gFileIndexOffset demo.gIndex (0, 0)).1) ∧
    payloadBlocks demo.gFileIndexOffset demo.gIndex =
      demo.gIndex.filter (fun b => decide (b.compressed_file_offset ≠ demo.gFileIndexOffset)) :=
  have h := C10_set_block_sizes_is_max_over_payload demo.gFileIndexOffset demo.gIndex
  ⟨by decide, (h.2.1 (by decide)).1, h.2.2.2 (by decide)⟩

/-! ## C6: no wanted block is skipped -/

theorem advance_suffix (uend : Nat) (w : List wanted_t) : advance uend w <:+ w := by
  induction w with
  | nil => simp [advance]
  | cons r rest ih =>
    simp only [advance]
    split
    · exact ih.trans (List.suffix_cons r rest)
    · exact List.suffix_refl _

theorem mem_advance (uend : Nat) (w : List wanted_t) (r : wanted_t) (hr : r ∈ w)
    (hend : ¬ r.end_ < uend) : r ∈ advance uend w := by
  induction w with
  | nil => simp at hr
  | cons r0 rest ih =>
    simp only [advance]
    split
    · rcases List.mem_cons.mp hr with rfl | hmem
      · contradiction
      · exact ih hmem
    · exact hr

theorem contiguousFrom_le (o : Nat) (bs : List Block) (h : contiguousFrom o bs = true) :
    ∀ b ∈ bs, o ≤ b.uncompressed_file_offset := by
  induction bs generalizing o with
  | nil => simp
  | cons c rest ih =>
    simp only [contiguousFrom, Bool.and_eq_true, beq_iff_eq] at h
    intro b hb
    rcases List.mem_cons.mp hb with rfl | hb
    · omega
    · have := ih _ h.2 b hb
      omega

theorem contiguousFrom_covers (o : Nat) (bs : List Block) (h : contiguousFrom o bs = true)
    (x : Nat) (hlo : o ≤ x) (hhi : x < o + totalOut bs) :
    ∃ b ∈ bs, b.uncompressed_file_offset ≤ x ∧
      x < b.uncompressed_file_offset + b.uncompressed_size := by
  induction bs generalizing o with
  | nil => simp [totalOut] at hhi; omega
  | cons c rest ih =>
    simp only [contiguousFrom, Bool.and_eq_true, beq_iff_eq] at h
    simp only [totalOut, List.map_cons, List.sum_cons] at hhi
    by_cases hx : x < o + c.uncompressed_size
    · exact ⟨c, by simp, by omega, by omega⟩
    · obtain ⟨b, hb, h1, h2⟩ := ih _ h.2 (by omega) (by simp only [totalOut]; omega)
      exact ⟨b, List.mem_cons_of_mem _ hb, h1, h2⟩

theorem needBlock_cases (gW w : List wanted_t) (b : Block) (hne : gW ≠ []) :
    (needBlock gW w b = none ∧
      ∀ r ∈ w, ∀ r0 ∈ w.head?, r0.start ≤ r.start →
        b.uncompressed_file_offset + b.uncompressed_size ≤ r.start) ∨
    needBlock gW w b = some (advance (b.uncompressed_file_offset + b.uncompressed_size) w) := by
  have hemp : gW.isEmpty = false := by
    cases gW with
    | nil => exact absurd rfl hne
    | cons _ _ => rfl
  cases w with
  | nil => left; simp [needBlock, hemp]
  | cons r0 rest =>
    by_cases hge : r0.start ≥ b.uncompressed_file_offset + b.uncompressed_size
    · left
      refine ⟨by simp [needBlock, hemp, hge], ?_⟩
      intro r _ r1 hr1 hle
      simp only [List.head?_cons, Option.mem_def, Option.some.injEq] at hr1
      subst hr1
      omega
    · right
      simp [needBlock, hemp, hge]

theorem readLoop_keeps_overlapping (fio inSize : Nat) (gW : List wanted_t) (hne : gW ≠ [])
    (blocks : List Block) (w : List wanted_t) (offset o : Nat)
    (hcont : contiguousFrom o (payloadBlocks fio blocks) = true)
    (hin : intact inSize (payloadBlocks fio blocks))
    (hw : w.Pairwise (fun a b => a.start ≤ b.start)) :
    (readLoop fio gW inSize blocks w offset).fault = none ∧
    ∀ b ∈ payloadBlocks fio blocks, (∃ r ∈ w, overlaps b r) →
      b ∈ (readLoop fio gW inSize blocks w offset).dispatched := by
  induction blocks generalizing w offset o with
  | nil => simp [readLoop, payloadBlocks]
  | cons b rest ih =>
    cases hfi : isFileIndexBlock fio b with
    | true =>
      rw [payloadBlocks_cons_fileIndex fio b rest hfi] at hcont hin ⊢
      simp only [readLoop, hfi, if_true]
      exact ih w offset o hcont hin hw
    | false =>
      rw [payloadBlocks_cons_payload fio b rest hfi] at hcont hin ⊢
      simp only [contiguousFrom, Bool.and_eq_true, beq_iff_eq] at hcont
      obtain ⟨hbo, hcont2⟩ := hcont
      have hrest : intact inSize (payloadBlocks fio rest) :=
        fun c hc => hin c (List.mem_cons_of_mem _ hc)
      have hafter := contiguousFrom_le _ _ hcont2
      rcases needBlock_cases gW w b hne with ⟨hnone, hskip⟩ | hsome
      · obtain ⟨ih1, ih2⟩ := ih w offset _ hcont2 hrest hw
        simp only [readLoop, hfi, Bool.false_eq_true, if_false, hnone]
        refine ⟨ih1, ?_⟩
        intro c hc hov
        rcases List.mem_cons.mp hc with rfl | hc
        · exfalso
          obtain ⟨r, hr, x, _, hx2, hx3, _⟩ := hov
          cases w with
          | nil => simp at hr
          | cons r0 w2 =>
            have hle : r0.start ≤ r.start := by
              rcases List.mem_cons.mp hr with rfl | hmem
              · exact le_refl _
              · exact (List.pairwise_cons.mp hw).1 r hmem
            have := hskip r hr r0 (by simp) hle
            omega
        · exact ih2 c hc hov
      · have hfull := fread_full inSize _ _ (hin b (by simp))
        have hw1 : (advance (b.uncompressed_file_offset + b.uncompressed_size) w).Pairwise
            (fun a b => a.start ≤ b.start) :=
          List.Pairwise.sublist (advance_suffix _ w).sublist hw
        obtain ⟨ih1, ih2⟩ := ih (advance (b.uncompressed_file_offset + b.uncompressed_size) w)
          (b.compressed_file_offset + b.total_size) _ hcont2 hrest hw1
        simp only [readLoop, hfi, Bool.false_eq_true, if_false, hsome, hfull]
        refine ⟨ih1, ?_⟩
        intro c hc hov
        rcases List.mem_cons.mp hc with rfl | hc
        · exact List.mem_cons_self _ _
        · refine List.mem_cons_of_mem _ (ih2 c hc ?_)
          obtain ⟨r, hr, x, hx1, hx2, hx3, hx4⟩ := hov
          have hc0 := hafter c hc
          exact ⟨r, mem_advance _ w r hr (by omega), x, hx1, hx2, hx3, hx4⟩

theorem mem_rangePoints (ws : List wanted_t) (x : Nat) :
    x ∈ rangePoints ws ↔ ∃ r ∈ ws, r.start ≤ x ∧ x < r.end_ := by
  induction ws with
  | nil => simp [rangePoints]
  | cons w rest ih => simp [rangePoints, ih]

theorem mem_blockPoints (bs : List Block) (x : Nat) :
    x ∈ blockPoints bs ↔ ∃ b ∈ bs, b.uncompressed_file_offset ≤ x ∧
      x < b.uncompressed_file_offset + b.uncompressed_size := by
  induction bs with
  | nil => simp [blockPoints]
  | cons b rest ih => simp [blockPoints, ih]

theorem card_blockPoints_le (bs : List Block) : (blockPoints bs).card ≤ totalOut bs := by
  induction bs with
  | nil => simp [blockPoints, totalOut]
  | cons b rest ih =>
    simp only [blockPoints, totalOut, List.map_cons, List.sum_cons]
    refine le_trans (Finset.card_union_le _ _) ?_
    rw [Nat.card_Ico]
    simp only [totalOut] at ih
    omega

theorem rangesAscending_cons (w : wanted_t) (rest : List wanted_t)
    (h : rangesAscending (w :: rest) = true) :
    w.start ≤ w.end_ ∧ (∀ nx ∈ rest.head?, w.end_ ≤ nx.start) ∧ rangesAscending rest = true := by
  simp only [rangesAscending, Bool.and_eq_true, decide_eq_true_eq] at h
  refine ⟨h.1.1, ?_, h.2⟩
  cases rest with
  | nil => simp
  | cons n rest2 => simpa using h.1.2

theorem rangesAscending_iff (ws : List wanted_t) :
    rangesAscending ws = true ↔
      (∀ w ∈ ws, w.start ≤ w.end_) ∧ ws.Chain' (fun a b => a.end_ ≤ b.start) := by
  induction ws with
  | nil => simp [rangesAscending]
  | cons w rest ih =>
    cases rest with
    | nil => simp [rangesAscending]
    | cons n rest2 =>
      simp only [rangesAscending, Bool.and_eq_true, decide_eq_true_eq] at ih ⊢
      simp only [List.chain'_cons, List.forall_mem_cons] at ih ⊢
      constructor
      · rintro ⟨⟨h1, h2⟩, h3⟩
        have := ih.mp h3
        exact ⟨⟨h1, this.1⟩, h2, this.2⟩
      · rintro ⟨⟨h1, h2⟩, h3, h4⟩
        exact ⟨⟨h1, h3⟩, ih.mpr ⟨h2, h4⟩⟩

theorem rangesAscending_head_le (w : wanted_t) (rest : List wanted_t)
    (h : rangesAscending (w :: rest) = true) : ∀ r ∈ rest, w.end_ ≤ r.start := by
  induction rest generalizing w with
  | nil => simp
  | cons n rest2 ih =>
    intro r hr
    obtain ⟨_, hhead, htail⟩ := rangesAscending_cons w _ h
    have hwn : w.end_ ≤ n.start := hhead n (by simp)
    rcases List.mem_cons.mp hr with rfl | hmem
    · exact hwn
    · have hn := ih n htail r hmem
      have := (rangesAscending_cons n _ htail).1
      omega

theorem rangesAscending_starts (ws : List wanted_t) (h : rangesAscending ws = true) :
    ws.Pairwise (fun a b => a.start ≤ b.start) := by
  induction ws with
  | nil => exact List.Pairwise.nil
  | cons w rest ih =>
    refine List.Pairwise.cons ?_ (ih (rangesAscending_cons w rest h).2.2)
    intro r hr
    have := rangesAscending_head_le w rest h r hr
    have := (rangesAscending_cons w rest h).1
    omega

theorem card_rangePoints (ws : List wanted_t) (h : rangesAscending ws = true)
    (hsize : ∀ w ∈ ws, w.size = w.end_ - w.start) :
    (rangePoints ws).card = totalWanted ws := by
  induction ws with
  | nil => simp [rangePoints, totalWanted]
  | cons w rest ih =>
    have hdisj : Disjoint (Finset.Ico w.start w.end_) (rangePoints rest) := by
      rw [Finset.disjoint_left]
      intro x hx hx2
      obtain ⟨r, hr, hr1, _⟩ := (mem_rangePoints rest x).mp hx2
      have := rangesAscending_head_le w rest h r hr
      have := (Finset.mem_Ico.mp hx).2
      omega
    have ih2 := ih (rangesAscending_cons w rest h).2.2
      (fun r hr => hsize r (List.mem_cons_of_mem _ hr))
    simp only [rangePoints, totalWanted, List.map_cons, List.sum_cons]
    rw [Finset.card_union_of_disjoint hdisj, Nat.card_Ico, ih2, hsize w (by simp)]
    rfl

/-- The ranges built from a sentinel-terminated file index with ascending offsets,
none past `total` (the sentinel's offset, the size of the uncompressed stream),
are ascending and non-overlapping, have `size = end - start`, and end at or
before `total`. -/
theorem matchedRanges_wellformed (specs : List CStr) (idx : List file_index_t) (total : Nat)
    (hidx : sentinelTerminated idx = true) (hasc : offsetsAscending idx)
    (htot : ∀ f ∈ idx, f.offset ≤ total) (h64 : total < 2 ^ 64) :
    rangesAscending (matchedRanges specs idx) = true ∧
    ∀ w ∈ matchedRanges specs idx, w.size = w.end_ - w.start ∧ w.end_ ≤ total := by
  obtain ⟨h1, h2⟩ := matchedRanges_bounds specs idx hidx hasc
  refine ⟨(rangesAscending_iff _).mpr ⟨fun w hw => (h1 w hw).1, List.Pairwise.chain' h2⟩, ?_⟩
  intro w hw
  have hle := (h1 w hw).1
  simp only [matchedRanges, List.mem_filterMap] at hw
  obtain ⟨p, hp, hpw⟩ := hw
  have hmem : p.2 ∈ idx := List.mem_of_mem_tail (List.of_mem_zip hp).2
  have hend := htot p.2 hmem
  cases hn : p.1.name with
  | none => simp [hn] at hpw
  | some name =>
    simp only [hn] at hpw
    split at hpw
    · simp only [Option.some.injEq] at hpw
      subst hpw
      simp only at hle ⊢
      refine ⟨?_, hend⟩
      unfold subSizeT
      have e1 : p.2.offset + 2 ^ 64 - p.1.offset = (p.2.offset - p.1.offset) + 2 ^ 64 := by
        omega
      rw [e1, Nat.add_mod_right]
      exact Nat.mod_eq_of_lt (by omega)
    · simp at hpw

/-- C6: for payload blocks that lie end to end in uncompressed space from offset
0, on an input file that holds them in full, and a non-empty ascending
non-overlapping wanted list with `size = end - start`, `read_thread` ends
without a fault and dispatches every payload block whose uncompressed extent
has a byte in common with some wanted range; and with the wanted ranges inside
the uncompressed stream, as the sentinel of the file index bounds them, the
bytes written (the sum of the dispatched blocks' uncompressed sizes) are at
least the sum of the wanted ranges' sizes. -/
theorem C6_filtered_run_keeps_every_overlapping_block (gIndex : List Block)
    (gFileIndexOffset : Nat) (gWantedFiles : List wanted_t) (inSize ftello : Nat)
    (hne : gWantedFiles ≠ [])
    (hcont : contiguousFrom 0 (payloadBlocks gFileIndexOffset gIndex) = true)
    (hin : intact inSize (payloadBlocks gFileIndexOffset gIndex))
    (hasc : rangesAscending gWantedFiles = true)
    (hsize : ∀ w ∈ gWantedFiles, w.size = w.end_ - w.start) :
    (read_thread gIndex gFileIndexOffset gWantedFiles inSize ftello).fault = none ∧
    (∀ b ∈ payloadBlocks gFileIndexOffset gIndex, (∃ r ∈ gWantedFiles, overlaps b r) →
      b ∈ (read_thread gIndex gFileIndexOffset gWantedFiles inSize ftello).dispatched) ∧
    ((∀ w ∈ gWantedFiles, w.end_ ≤ totalOut (payloadBlocks gFileIndexOffset gIndex)) →
      totalWanted gWantedFiles ≤
        totalOut (read_thread gIndex gFileIndexOffset gWantedFiles inSize ftello).dispatched) := by
  obtain ⟨h1, h2⟩ := readLoop_keeps_overlapping gFileIndexOffset inSize gWantedFiles hne
    gIndex gWantedFiles ftello 0 hcont hin (rangesAscending_starts _ hasc)
  refine ⟨h1, h2, ?_⟩
  intro hend
  rw [← card_rangePoints gWantedFiles hasc hsize]
  refine le_trans (Finset.card_le_card ?_) (card_blockPoints_le _)
  intro x hx
  obtain ⟨r, hr, hr1, hr2⟩ := (mem_rangePoints _ x).mp hx
  have hlt : x < 0 + totalOut (payloadBlocks gFileIndexOffset gIndex) := by
    have := hend r hr
    omega
  obtain ⟨b, hb, hb1, hb2⟩ := contiguousFrom_covers 0 _ hcont x (Nat.zero_le _) hlt
  exact (mem_blockPoints _ x).mpr ⟨b, h2 b hb ⟨r, hr, x, hb1, hb2, hr1, hr2⟩, hb1, hb2⟩

/-- C6 at the scenario archive: the wanted ranges `[100,250)` and `[250,300)`, the
ones `wanted_files` builds for the spec `b`, dispatch B1 then B2 and not B0,
200 bytes, which is the sum of the two range sizes. -/
theorem C6_filtered_run_keeps_every_overlapping_block_witness :
    (read_thread demo.gIndex demo.gFileIndexOffset
        [⟨"b/c.txt".toList, 100, 250, 150⟩, ⟨"b/d.txt".toList, 250, 300, 50⟩]
        demo.inSize demo.ftello).dispatched = [B1, B2] ∧
    totalWanted [⟨"b/c.txt".toList, 100, 250, 150⟩, ⟨"b/d.txt".toList, 250, 300, 50⟩] ≤
      totalOut (read_thread demo.gIndex demo.gFileIndexOffset
        [⟨"b/c.txt".toList, 100, 250, 150⟩, ⟨"b/d.txt".toList, 250, 300, 50⟩]
        demo.inSize demo.ftello).dispatched ∧
    (main ["b".toList] demo).dispatched = [B1, B2] ∧
    (main ["b".toList] demo).written = 200 :=
  ⟨by decide,
   (C6_filtered_run_keeps_every_overlapping_block demo.gIndex demo.gFileIndexOffset
      [⟨"b/c.txt".toList, 100, 250, 150⟩, ⟨"b/d.txt".toList, 250, 300, 50⟩]
      demo.inSize demo.ftello
      (by decide) (by decide) (by decide) (by decide) (by decide)).2.2 (by decide),
   by decide, by decide⟩

/-! ## C11: seeks -/

theorem readLoop_seeks (fio inSize : Nat) (gW : List wanted_t) (blocks : List Block)
    (w : List wanted_t) (offset : Nat)
    (hok : (readLoop fio gW inSize blocks w offset).fault = none) :
    (readLoop fio gW inSize blocks w offset).seeks =
      seekCount offset (readLoop fio gW inSize blocks w offset).dispatched ∧
    (readLoop fio gW inSize blocks w offset).offset =
      finalOffset offset (readLoop fio gW inSize blocks w offset).dispatched := by
  induction blocks generalizing w offset with
  | nil => simp [readLoop, seekCount, finalOffset]
  | cons b rest ih =>
    cases hfi : isFileIndexBlock fio b with
    | true =>
      simp only [readLoop, hfi, if_true] at hok ⊢
      exact ih w offset hok
    | false =>
      cases hnb : needBlock gW w b with
      | none =>
        simp only [readLoop, hfi, Bool.false_eq_true, if_false, hnb] at hok ⊢
        exact ih w offset hok
      | some w1 =>
        by_cases hshort : fread inSize b.compressed_file_offset b.total_size < b.total_size
        · simp [readLoop, hfi, hnb, hshort] at hok
        · simp only [readLoop, hfi, Bool.false_eq_true, if_false, hnb, hshort] at hok ⊢
          obtain ⟨ih1, ih2⟩ := ih w1 (b.compressed_file_offset + b.total_size) hok
          simp only [seekCount, finalOffset, ih1, ih2, and_self]

theorem seekCount_contiguous (pos : Nat) (bs : List Block)
    (h : compressedContiguousFrom pos bs = true) : seekCount pos bs = 0 := by
  induction bs generalizing pos with
  | nil => rfl
  | cons b rest ih =>
    simp only [compressedContiguousFrom, Bool.and_eq_true, beq_iff_eq] at h
    have h2 := ih _ h.2
    have h1 : ¬ pos ≠ b.compressed_file_offset := fun hne => hne h.1.symm
    simp only [seekCount, h2, h1, if_false]

/-- C11: in a run that ends without a read error, `read_thread` performs one
`fseeko` for a dispatched block exactly when the tracked position differs
from the block's compressed offset, the tracked position after a block being
its offset plus its total size, whatever blocks were skipped in between; so
when the dispatched blocks are compressed-offset-contiguous the run performs
at most one seek, whatever the initial read position. -/
theorem C11_contiguous_run_seeks_at_most_once (gIndex : List Block) (gFileIndexOffset : Nat)
    (gWantedFiles : List wanted_t) (inSize ftello : Nat)
    (hok : (read_thread gIndex gFileIndexOffset gWantedFiles inSize ftello).fault = none) :
    (read_thread gIndex gFileIndexOffset gWantedFiles inSize ftello).seeks =
      seekCount ftello
        (read_thread gIndex gFileIndexOffset gWantedFiles inSize ftello).dispatched ∧
    (read_thread gIndex gFileIndexOffset gWantedFiles inSize ftello).offset =
      finalOffset ftello
        (read_thread gIndex gFileIndexOffset gWantedFiles inSize ftello).dispatched ∧
    (compressedContiguous
        (read_thread gIndex gFileIndexOffset gWantedFiles inSize ftello).dispatched = true →
      (read_thread gIndex gFileIndexOffset gWantedFiles inSize ftello).seeks ≤ 1) := by
  obtain ⟨h1, h2⟩ := readLoop_seeks gFileIndexOffset inSize gWantedFiles gIndex
    gWantedFiles ftello hok
  refine ⟨h1, h2, ?_⟩
  intro hc
  unfold read_thread at hc ⊢
  rw [h1]
  cases hd : (readLoop gFileIndexOffset gWantedFiles inSize gIndex gWantedFiles ftello).dispatched with
  | nil => simp [seekCount]
  | cons b rest =>
    rw [hd] at hc
    simp only [compressedContiguous] at hc
    simp only [seekCount, seekCount_contiguous _ _ hc]
    split <;> omega

/-- C11 at the scenario: the run for the wanted ranges of `b` skips B0, reads B1
and B2, which are adjacent in the file, and seeks once, from position 12 to B1. -/
theorem C11_contiguous_run_seeks_at_most_once_witness :
    (read_thread demo.gIndex demo.gFileIndexOffset
        [⟨"b/c.txt".toList, 100, 250, 150⟩, ⟨"b/d.txt".toList, 250, 300, 50⟩]
        demo.inSize demo.ftello).seeks ≤ 1 :=
  (C11_contiguous_run_seeks_at_most_once demo.gIndex demo.gFileIndexOffset
      [⟨"b/c.txt".toList, 100, 250, 150⟩, ⟨"b/d.txt".toList, 250, 300, 50⟩]
      demo.inSize demo.ftello (by decide)).2.2 (by decide)

/-! ## C13: the cursor after a needed block -/

/-- C13 (the code at the failing input): for the wanted list `[0,100)` and block
B0 `[0,100)`, the block is needed and after it the cursor still rests on the
range `[0,100)`, whose `end` equals the block's end offset; only a later block
with a larger end offset moves the cursor on. -/
theorem C13_cursor_stays_on_range_ending_at_block_end :
    B0.uncompressed_file_offset + B0.uncompressed_size = 100 ∧
    needBlock [⟨"a.txt".toList, 0, 100, 100⟩] [⟨"a.txt".toList, 0, 100, 100⟩] B0
      = some [⟨"a.txt".toList, 0, 100, 100⟩] ∧
    advance 100 [⟨"a.txt".toList, 0, 100, 100⟩] = [⟨"a.txt".toList, 0, 100, 100⟩] ∧
    needBlock [⟨"a.txt".toList, 0, 100, 100⟩] [⟨"a.txt".toList, 0, 100, 100⟩] B1
      = some [] := by
  decide

/-! ## C15: the buffers fit every dispatched block -/

theorem readLoop_dispatched_sublist (fio inSize : Nat) (gW : List wanted_t)
    (blocks : List Block) (w : List wanted_t) (offset : Nat) :
    (readLoop fio gW inSize blocks w offset).dispatched.Sublist (payloadBlocks fio blocks) := by
  induction blocks generalizing w offset with
  | nil => simp [readLoop, payloadBlocks]
  | cons b rest ih =>
    cases hfi : isFileIndexBlock fio b with
    | true =>
      rw [payloadBlocks_cons_fileIndex fio b rest hfi]
      simp only [readLoop, hfi, if_true]
      exact ih w offset
    | false =>
      rw [payloadBlocks_cons_payload fio b rest hfi]
      cases hnb : needBlock gW w b with
      | none =>
        simp only [readLoop, hfi, Bool.false_eq_true, if_false, hnb]
        exact (ih w offset).cons b
      | some w1 =>
        by_cases hshort : fread inSize b.compressed_file_offset b.total_size < b.total_size
        · simp [readLoop, hfi, hnb, hshort]
        · simp only [readLoop, hfi, Bool.false_eq_true, if_false, hnb, hshort]
          exact (ih w1 _).cons₂ b

/-- C15: every block `read_thread` dispatches, with or without a wanted list, is a
payload block, and its total compressed size is at most `gBlockInSize` and its
uncompressed size at most `gBlockOutSize` as `set_block_sizes` computes them
from `(0, 0)`; so the `fread` of `bsize` bytes fits the input buffer. -/
theorem C15_dispatched_block_fits_buffers (gIndex : List Block) (gFileIndexOffset : Nat)
    (gWantedFiles : List wanted_t) (inSize ftello : Nat) :
    ∀ b ∈ (read_thread gIndex gFileIndexOffset gWantedFiles inSize ftello).dispatched,
      b ∈ payloadBlocks gFileIndexOffset gIndex ∧
      b.total_size ≤ (set_block_sizes gFileIndexOffset gIndex (0, 0)).1 ∧
      b.uncompressed_size ≤ (set_block_sizes gFileIndexOffset gIndex (0, 0)).2 := by
  intro b hb
  have hmem : b ∈ payloadBlocks gFileIndexOffset gIndex :=
    (readLoop_dispatched_sublist gFileIndexOffset inSize gWantedFiles gIndex
      gWantedFiles ftello).subset hb
  exact ⟨hmem, (set_block_sizes_ge gFileIndexOffset gIndex (0, 0)).2.2 b hmem⟩

/-- C15 at the scenario: B1, dispatched for the wanted ranges of `b`, has the
largest sizes `(80, 150)` and fits the buffers. -/
theorem C15_dispatched_block_fits_buffers_witness :
    B1.total_size ≤ (set_block_sizes demo.gFileIndexOffset demo.gIndex (0, 0)).1 ∧
    B1.uncompressed_size ≤ (set_block_sizes demo.gFileIndexOffset demo.gIndex (0, 0)).2 :=
  (C15_dispatched_block_fits_buffers demo.gIndex demo.gFileIndexOffset
      [⟨"b/c.txt".toList, 100, 250, 150⟩, ⟨"b/d.txt".toList, 250, 300, 50⟩]
      demo.inSize demo.ftello B1 (by decide)).2

/-! ## C14: the sweep against the per-block scan -/

theorem naiveScan_iff (ws : List wanted_t) (b : Block) :
    naiveScan ws b = true ↔
      ∃ r ∈ ws, r.start < b.uncompressed_file_offset + b.uncompressed_size ∧
        r.end_ ≥ b.uncompressed_file_offset := by
  simp [naiveScan, List.any_eq_true]

theorem advance_split (uend : Nat) (w : List wanted_t) :
    ∃ pre, w = pre ++ advance uend w ∧ (∀ r ∈ pre, r.end_ < uend) ∧
      ∀ h ∈ (advance uend w).head?, uend ≤ h.end_ := by
  induction w with
  | nil => exact ⟨[], by simp [advance]⟩
  | cons r rest ih =>
    by_cases hlt : r.end_ < uend
    · obtain ⟨pre, h1, h2, h3⟩ := ih
      refine ⟨r :: pre, ?_, ?_, ?_⟩
      · simp only [advance, hlt, if_true, List.cons_append]
        rw [← h1]
      · intro q hq
        rcases List.mem_cons.mp hq with rfl | hq
        · exact hlt
        · exact h2 q hq
      · simpa only [advance, hlt, if_true] using h3
    · refine ⟨[], by simp [advance, hlt], by simp, ?_⟩
      simp only [advance, hlt, if_false, List.head?_cons, Option.mem_def, Option.some.injEq]
      intro h hh
      subst hh
      omega

theorem readLoop_eq_naiveScan (fio inSize : Nat) (ws : List wanted_t) (hne : ws ≠ [])
    (hst : startsAscending ws) (hse : ∀ r ∈ ws, r.start ≤ r.end_)
    (blocks : List Block) (w dropped : List wanted_t) (offset o : Nat)
    (hsplit : ws = dropped ++ w) (hdrop : ∀ r ∈ dropped, r.end_ < o)
    (hhead : ∀ h ∈ w.head?, o ≤ h.end_)
    (hcont : contiguousFrom o (payloadBlocks fio blocks) = true)
    (hin : intact inSize (payloadBlocks fio blocks)) :
    (readLoop fio ws inSize blocks w offset).dispatched =
      (payloadBlocks fio blocks).filter (naiveScan ws) ∧
    (readLoop fio ws inSize blocks w offset).fault = none := by
  have hemp : ws.isEmpty = false := by
    cases ws with
    | nil => exact absurd rfl hne
    | cons _ _ => rfl
  induction blocks generalizing w dropped offset o with
  | nil => simp [readLoop, payloadBlocks]
  | cons b rest ih =>
    cases hfi : isFileIndexBlock fio b with
    | true =>
      rw [payloadBlocks_cons_fileIndex fio b rest hfi] at hcont hin ⊢
      simp only [readLoop, hfi, if_true]
      exact ih w dropped offset o hsplit hdrop hhead hcont hin
    | false =>
      rw [payloadBlocks_cons_payload fio b rest hfi] at hcont hin ⊢
      simp only [contiguousFrom, Bool.and_eq_true, beq_iff_eq] at hcont
      obtain ⟨hbo, hcont2⟩ := hcont
      have hrest : intact inSize (payloadBlocks fio rest) :=
        fun c hc => hin c (List.mem_cons_of_mem _ hc)
      have hwsorted : w.Pairwise (fun a b => a.start ≤ b.start) := by
        have h := hst
        unfold startsAscending at h
        rw [hsplit] at h
        exact (List.pairwise_append.mp h).2.1
      cases w with
      | nil =>
        have hnone : needBlock ws [] b = none := by simp [needBlock, hemp]
        have hnaive : naiveScan ws b = false := by
          rw [Bool.eq_false_iff]
          intro hn
          obtain ⟨r, hr, _, hr2⟩ := (naiveScan_iff ws b).mp hn
          rw [hsplit, List.append_nil] at hr
          have := hdrop r hr
          omega
        simp only [readLoop, hfi, Bool.false_eq_true, if_false, hnone, List.filter_cons, hnaive]
        exact ih [] dropped offset _ hsplit (fun r hr => by have := hdrop r hr; omega)
          (by simp) hcont2 hrest
      | cons h t =>
        have hh : o ≤ h.end_ := hhead h (by simp)
        by_cases hge : h.start ≥ b.uncompressed_file_offset + b.uncompressed_size
        · have hnone : needBlock ws (h :: t) b = none := by simp [needBlock, hemp, hge]
          have hnaive : naiveScan ws b = false := by
            rw [Bool.eq_false_iff]
            intro hn
            obtain ⟨r, hr, hr1, hr2⟩ := (naiveScan_iff ws b).mp hn
            rw [hsplit] at hr
            rcases List.mem_append.mp hr with hd | hw
            · have := hdrop r hd
              omega
            · rcases List.mem_cons.mp hw with rfl | ht
              · omega
              · have := (List.pairwise_cons.mp hwsorted).1 r ht
                omega
          simp only [readLoop, hfi, Bool.false_eq_true, if_false, hnone, List.filter_cons,
            hnaive]
          refine ih (h :: t) dropped offset _ hsplit
            (fun r hr => by have := hdrop r hr; omega) ?_ hcont2 hrest
          intro h2 hh2
          simp only [List.head?_cons, Option.mem_def, Option.some.injEq] at hh2
          rw [← hh2]
          have := hse h (by rw [hsplit]; simp)
          omega
        · have hsome : needBlock ws (h :: t) b =
              some (advance (b.uncompressed_file_offset + b.uncompressed_size) (h :: t)) := by
            simp [needBlock, hemp, hge]
          have hnaive : naiveScan ws b = true :=
            (naiveScan_iff ws b).mpr ⟨h, by rw [hsplit]; simp, by omega, by omega⟩
          have hfull := fread_full inSize _ _ (hin b (by simp))
          obtain ⟨pre, hp1, hp2, hp3⟩ :=
            advance_split (b.uncompressed_file_offset + b.uncompressed_size) (h :: t)
          obtain ⟨ih1, ih2⟩ := ih
            (advance (b.uncompressed_file_offset + b.uncompressed_size) (h :: t))
            (dropped ++ pre) (b.compressed_file_offset + b.total_size)
            (o + b.uncompressed_size)
            (by rw [List.append_assoc, ← hp1]; exact hsplit)
            (fun r hr => by
              rcases List.mem_append.mp hr with hd | hpre
              · have := hdrop r hd
                omega
              · have := hp2 r hpre
                omega)
            (fun h2 hh2 => by have := hp3 h2 hh2; omega) hcont2 hrest
          simp only [readLoop, hfi, Bool.false_eq_true, if_false, hsome, hfull, List.filter_cons,
            hnaive, if_true, ih1, ih2, and_self]

/-- C14: for payload blocks that lie end to end in uncompressed space from offset
0, on an input file that holds them in full, and a non-empty wanted list with
ascending starts and `start <= end` in every range, the blocks `read_thread`
dispatches are exactly the payload blocks the per-block scan selects, in order:
a payload block `[ustart, uend)` is dispatched if and only if some range of the
list has `start < uend` and `end >= ustart`. -/
theorem C14_sweep_eq_naive_scan (gIndex : List Block) (gFileIndexOffset : Nat)
    (gWantedFiles : List wanted_t) (inSize ftello : Nat)
    (hne : gWantedFiles ≠ [])
    (hst : startsAscending gWantedFiles)
    (hse : ∀ r ∈ gWantedFiles, r.start ≤ r.end_)
    (hcont : contiguousFrom 0 (payloadBlocks gFileIndexOffset gIndex) = true)
    (hin : intact inSize (payloadBlocks gFileIndexOffset gIndex)) :
    (read_thread gIndex gFileIndexOffset gWantedFiles inSize ftello).dispatched =
      (payloadBlocks gFileIndexOffset gIndex).filter (naiveScan gWantedFiles) ∧
    (∀ b ∈ payloadBlocks gFileIndexOffset gIndex,
      b ∈ (read_thread gIndex gFileIndexOffset gWantedFiles inSize ftello).dispatched ↔
        ∃ r ∈ gWantedFiles,
          r.start < b.uncompressed_file_offset + b.uncompressed_size ∧
          r.end_ ≥ b.uncompressed_file_offset) := by
  have h := (readLoop_eq_naiveScan gFileIndexOffset inSize gWantedFiles hne hst hse gIndex
    gWantedFiles [] ftello 0 (by simp) (by simp) (by simp) hcont hin).1
  refine ⟨h, ?_⟩
  intro b hb
  unfold read_thread
  rw [h, List.mem_filter, naiveScan_iff]
  exact ⟨fun hx => hx.2, fun hx => ⟨hb, hx⟩⟩

/-- C14 at the scenario: with the wanted range `[0,100)` the scan selects B0 and
B1 (the range ends where B1 starts) and not B2, and these are the blocks
dispatched. -/
theorem C14_sweep_eq_naive_scan_witness :
    (read_thread demo.gIndex demo.gFileIndexOffset [⟨"a.txt".toList, 0, 100, 100⟩]
        demo.inSize demo.ftello).dispatched
      = (payloadBlocks demo.gFileIndexOffset demo.gIndex).filter
          (naiveScan [⟨"a.txt".toList, 0, 100, 100⟩]) ∧
    (payloadBlocks demo.gFileIndexOffset demo.gIndex).filter
        (naiveScan [⟨"a.txt".toList, 0, 100, 100⟩]) = [B0, B1] :=
  ⟨(C14_sweep_eq_naive_scan demo.gIndex demo.gFileIndexOffset
      [⟨"a.txt".toList, 0, 100, 100⟩] demo.inSize demo.ftello
      (by decide) (by decide) (by decide) (by decide) (by decide)).1, by decide⟩

/-! ## C16: corrupt blocks -/

theorem codeLoop_first_non_ok (code : Nat → lzma_ret × Nat) (k : Nat) :
    ∀ fuel calls produced, (∀ i < k, (code (calls + i)).1 = .LZMA_OK) →
      (code (calls + k)).1 ≠ .LZMA_OK → k + 2 ≤ fuel →
      codeLoop code fuel .LZMA_OK calls produced =
        some (if (code (calls + k)).1 = .LZMA_STREAM_END then
                .forwarded (produced + bytesProduced code calls (k + 1))
              else .died "Error decoding block") := by
  induction k with
  | zero =>
    intro fuel calls produced _ hk hfuel
    obtain ⟨f, rfl⟩ : ∃ f, fuel = f + 2 := ⟨fuel - 2, by omega⟩
    simp only [Nat.add_zero] at hk ⊢
    by_cases hend : (code calls).1 = .LZMA_STREAM_END
    · simp [codeLoop, bytesProduced, hend]
    · simp [codeLoop, bytesProduced, hend, hk]
  | succ k ih =>
    intro fuel calls produced hok hk hfuel
    obtain ⟨f, rfl⟩ : ∃ f, fuel = f + 1 := ⟨fuel - 1, by omega⟩
    have h0 : (code calls).1 = .LZMA_OK := by simpa using hok 0 (by omega)
    have ih2 := ih f (calls + 1) (produced + (code calls).2)
      (fun i hi => by
        have := hok (i + 1) (by omega)
        rwa [show calls + (i + 1) = calls + 1 + i by omega] at this)
      (by rwa [show calls + (k + 1) = calls + 1 + k by omega] at hk) (by omega)
    rw [show calls + 1 + k = calls + (k + 1) by omega] at ih2
    have hb : bytesProduced code calls (k + 1 + 1) =
        (code calls).2 + bytesProduced code (calls + 1) (k + 1) := rfl
    have hstep : codeLoop code (f + 1) .LZMA_OK calls produced =
        codeLoop code f .LZMA_OK (calls + 1) (produced + (code calls).2) := by
      simp [codeLoop, h0]
    rw [hstep, ih2, hb, Nat.add_assoc]

theorem codeLoop_forwarded (code : Nat → lzma_ret × Nat) :
    ∀ fuel err calls produced n,
      codeLoop code fuel err calls produced = some (.forwarded n) →
      err = .LZMA_STREAM_END ∨
        (err = .LZMA_OK ∧ ∃ j, (code (calls + j)).1 = .LZMA_STREAM_END ∧
          ∀ i < j, (code (calls + i)).1 = .LZMA_OK) := by
  intro fuel
  induction fuel with
  | zero => intro err calls produced n h; simp [codeLoop] at h
  | succ f ih =>
    intro err calls produced n h
    by_cases hend : err = .LZMA_STREAM_END
    · exact Or.inl hend
    · by_cases hok : err = .LZMA_OK
      · right
        refine ⟨hok, ?_⟩
        subst hok
        simp only [codeLoop, reduceCtorEq, if_false, ne_eq, not_true_eq_false] at h
        rcases ih _ _ _ _ h with h1 | ⟨h1, j, hj, hlt⟩
        · exact ⟨0, by simpa using h1, by intro i hi; omega⟩
        · refine ⟨j + 1, by rwa [show calls + (j + 1) = calls + 1 + j by omega], ?_⟩
          intro i hi
          cases i with
          | zero => simpa using h1
          | succ i =>
            have := hlt i (by omega)
            rwa [show calls + (i + 1) = calls + 1 + i by omega]
      · simp [codeLoop, hend, hok] at h

/-- C16: with the liblzma calls as primitives and call number `k` of `lzma_code`
the first one that does not return `LZMA_OK`, `decode_thread` ends its work on
the ticket, and it dies exactly when header decoding does not return OK, or
decoder initialisation does not return OK, or that first other status is not
`LZMA_STREAM_END`; otherwise it forwards the ticket with `outsize` the bytes
the codec produced. Whatever the codec, a ticket is forwarded only after a
call of `lzma_code` returned `LZMA_STREAM_END`. -/
theorem C16_decode_thread_dies_iff_not_ok (c : Codec) (k fuel : Nat)
    (hok : ∀ i < k, (c.code i).1 = .LZMA_OK) (hk : (c.code k).1 ≠ .LZMA_OK)
    (hfuel : k + 2 ≤ fuel) :
    (∃ r, decode_thread c fuel = some r ∧
      ((∃ msg, r = .died msg) ↔
        (c.header_decode ≠ .LZMA_OK ∨ c.block_decoder ≠ .LZMA_OK ∨
          (c.code k).1 ≠ .LZMA_STREAM_END)) ∧
      ((¬ ∃ msg, r = .died msg) → r = .forwarded (bytesProduced c.code 0 (k + 1)))) ∧
    (∀ fuel2 n, decode_thread c fuel2 = some (.forwarded n) →
      c.header_decode = .LZMA_OK ∧ c.block_decoder = .LZMA_OK ∧
        ∃ j, (c.code j).1 = .LZMA_STREAM_END ∧ ∀ i < j, (c.code i).1 = .LZMA_OK) := by
  constructor
  · by_cases hh : c.header_decode = .LZMA_OK
    · by_cases hi : c.block_decoder = .LZMA_OK
      · have hloop := codeLoop_first_non_ok c.code k fuel 0 0
          (fun i hi => by simpa using hok i hi) (by simpa using hk) hfuel
        simp only [Nat.zero_add] at hloop
        by_cases hend : (c.code k).1 = .LZMA_STREAM_END
        · refine ⟨.forwarded (bytesProduced c.code 0 (k + 1)), ?_, ?_, fun _ => rfl⟩
          · simp [decode_thread, hh, hi, hloop, hend]
          · simp [hh, hi, hend]
        · refine ⟨.died "Error decoding block", ?_, ?_, ?_⟩
          · simp [decode_thread, hh, hi, hloop, hend]
          · simp [hend]
          · intro hno
            exact absurd ⟨_, rfl⟩ hno
      · refine ⟨.died "Error initializing block decode", ?_, ?_, ?_⟩
        · simp [decode_thread, hh, hi]
        · simp [hi]
        · intro hno
          exact absurd ⟨_, rfl⟩ hno
    · refine ⟨.died "Error decoding block header", ?_, ?_, ?_⟩
      · simp [decode_thread, hh]
      · simp [hh]
      · intro hno
        exact absurd ⟨_, rfl⟩ hno
  · intro fuel2 n hfw
    by_cases hh : c.header_decode = .LZMA_OK
    · by_cases hi : c.block_decoder = .LZMA_OK
      · simp only [decode_thread, hh, hi, ne_eq, not_true_eq_false, if_false] at hfw
        rcases codeLoop_forwarded c.code fuel2 _ 0 0 n hfw with h1 | ⟨_, j, hj, hlt⟩
        · exact absurd h1 (by decide)
        · exact ⟨hh, hi, j, by simpa using hj, fun i hi => by simpa using hlt i hi⟩
      · simp [decode_thread, hh, hi] at hfw
    · simp [decode_thread, hh] at hfw

/-- C16 on a block that decodes in two calls of `lzma_code`: the ticket is
forwarded with `outsize = 100`. -/
theorem C16_decode_thread_dies_iff_not_ok_witness :
    decode_thread codecDemo 3 = some (.forwarded 100) ∧
    (∃ r, decode_thread codecDemo 3 = some r ∧
      ((∃ msg, r = .died msg) ↔
        (codecDemo.header_decode ≠ .LZMA_OK ∨ codecDemo.block_decoder ≠ .LZMA_OK ∨
          (codecDemo.code 1).1 ≠ .LZMA_STREAM_END)) ∧
      ((¬ ∃ msg, r = .died msg) → r = .forwarded (bytesProduced codecDemo.code 0 (1 + 1)))) :=
  ⟨by decide,
   (C16_decode_thread_dies_iff_not_ok codecDemo 1 3 (by decide) (by decide) (by decide)).1⟩

/-! ## C12: the writer restores the ticket order -/

theorem tickets_seq_ge (n : Nat) (ds : List Block) :
    ∀ q ∈ tickets n ds, n ≤ q.seq := by
  induction ds generalizing n with
  | nil => simp [tickets]
  | cons d rest ih =>
    intro q hq
    simp only [tickets, List.mem_cons] at hq
    rcases hq with rfl | hq
    · exact le_refl _
    · have := ih (n + 1) q hq
      omega

theorem tickets_length (n : Nat) (ds : List Block) : (tickets n ds).length = ds.length := by
  induction ds generalizing n with
  | nil => rfl
  | cons d rest ih => simp [tickets, ih]

theorem tickets_nodup (n : Nat) (ds : List Block) : (tickets n ds).Nodup := by
  induction ds generalizing n with
  | nil => simp [tickets]
  | cons d rest ih =>
    simp only [tickets, List.nodup_cons]
    refine ⟨fun hmem => ?_, ih (n + 1)⟩
    have := tickets_seq_ge (n + 1) rest _ hmem
    simp at this

theorem tickets_head_of_seq (n : Nat) (d : Block) (ds : List Block) (q : pipeline_item_t)
    (hq : q ∈ tickets n (d :: ds)) (hseq : q.seq = n) : q = ⟨n, d⟩ := by
  simp only [tickets, List.mem_cons] at hq
  rcases hq with rfl | hq
  · rfl
  · have := tickets_seq_ge (n + 1) ds q hq
    omega

theorem drain_spec (fuel : Nat) :
    ∀ (next : Nat) (held rest : List pipeline_item_t) (ds : List Block),
      held.length ≤ fuel → (held ++ rest).Perm (tickets next ds) →
      ∃ ds2, tickets next ds = (drain fuel next held).1 ++ tickets (drain fuel next held).2.1 ds2 ∧
        ((drain fuel next held).2.2 ++ rest).Perm (tickets (drain fuel next held).2.1 ds2) ∧
        ∀ q ∈ (drain fuel next held).2.2, q.seq ≠ (drain fuel next held).2.1 := by
  induction fuel with
  | zero =>
    intro next held rest ds hlen hperm
    have hnil : held = [] := List.length_eq_zero.mp (Nat.le_zero.mp hlen)
    subst hnil
    exact ⟨ds, by simp [drain], by simpa [drain] using hperm, by simp [drain]⟩
  | succ fuel ih =>
    intro next held rest ds hlen hperm
    cases hfind : held.find? (fun q => q.seq == next) with
    | none =>
      have hnone := List.find?_eq_none.mp hfind
      refine ⟨ds, by simp [drain, hfind], by simpa [drain, hfind] using hperm, ?_⟩
      intro q hq
      simp only [drain, hfind] at hq ⊢
      simpa using hnone q hq
    | some item =>
      have hitem : item ∈ held := List.mem_of_find?_eq_some hfind
      have hseq : item.seq = next := by simpa using List.find?_some hfind
      have hin : item ∈ tickets next ds := hperm.mem_iff.mp (List.mem_append_left _ hitem)
      cases ds with
      | nil => simp [tickets] at hin
      | cons d ds1 =>
        have hitem_eq : item = ⟨next, d⟩ := tickets_head_of_seq next d ds1 item hin hseq
        have hnodup : (held ++ rest).Nodup := hperm.nodup_iff.mpr (tickets_nodup _ _)
        have hrest : ∀ q ∈ rest, (q.seq != next) = true := by
          intro q hq
          rw [bne_iff_ne]
          intro hqs
          have hqin : q ∈ tickets next (d :: ds1) :=
            hperm.mem_iff.mp (List.mem_append_right _ hq)
          have hqe : q = item := by
            rw [hitem_eq]
            exact tickets_head_of_seq next d ds1 q hqin hqs
          subst hqe
          exact (List.nodup_append.mp hnodup).2.2 hitem hq
        have htail : ∀ q ∈ tickets (next + 1) ds1, (q.seq != next) = true := by
          intro q hq
          rw [bne_iff_ne]
          have := tickets_seq_ge (next + 1) ds1 q hq
          omega
        have hperm2 : (held.filter (fun q => q.seq != next) ++ rest).Perm
            (tickets (next + 1) ds1) := by
          have h1 := hperm.filter (fun q => q.seq != next)
          rw [List.filter_append, List.filter_eq_self.mpr hrest] at h1
          simp only [tickets] at h1
          rw [List.filter_cons_of_neg (by simp), List.filter_eq_self.mpr htail] at h1
          exact h1
        have hlen2 : (held.filter (fun q => q.seq != next)).length ≤ fuel := by
          have h1 := hperm.length_eq
          have h2 := hperm2.length_eq
          simp only [List.length_append, tickets_length, List.length_cons] at h1 h2
          omega
        obtain ⟨ds2, h1, h2, h3⟩ := ih (next + 1) _ rest ds1 hlen2 hperm2
        refine ⟨ds2, ?_, ?_, ?_⟩
        · simp only [drain, hfind, tickets, List.cons_append]
          rw [← h1, hitem_eq]
        · simpa only [drain, hfind] using h2
        · simpa only [drain, hfind] using h3

theorem pipeline_merged_spec (arrivals : List pipeline_item_t) :
    ∀ (next : Nat) (held : List pipeline_item_t) (ds : List Block),
      (held ++ arrivals).Perm (tickets next ds) → (∀ q ∈ held, q.seq ≠ next) →
      pipeline_merged arrivals next held = tickets next ds := by
  induction arrivals with
  | nil =>
    intro next held ds hperm hne
    cases ds with
    | nil => simp [pipeline_merged, tickets]
    | cons d ds1 =>
      exfalso
      have hmem : (⟨next, d⟩ : pipeline_item_t) ∈ held := by
        have := hperm.mem_iff.mpr (by simp [tickets] : (⟨next, d⟩ : pipeline_item_t) ∈
          tickets next (d :: ds1))
        simpa using this
      exact hne _ hmem rfl
  | cons item rest ih =>
    intro next held ds hperm _
    have hperm2 : ((item :: held) ++ rest).Perm (tickets next ds) :=
      (List.perm_middle.symm.trans hperm)
    obtain ⟨ds2, h1, h2, h3⟩ := drain_spec (held.length + 1) next (item :: held) rest ds
      (by simp) hperm2
    simp only [pipeline_merged]
    rw [ih _ _ ds2 h2 h3, ← h1]

theorem writtenBlocks_writerLoop_tickets (n : Nat) (ds : List Block) :
    writtenBlocks (writerLoop (tickets n ds)) = ds := by
  induction ds generalizing n with
  | nil => rfl
  | cons d rest ih => simp [tickets, writerLoop, writtenBlocks, ih]

theorem releasedAfterWritten_writerLoop (items : List pipeline_item_t) (written : List Block) :
    releasedAfterWritten written (writerLoop items) = true := by
  induction items generalizing written with
  | nil => rfl
  | cons item rest ih => simp [writerLoop, releasedAfterWritten, ih]

theorem decoderStep_perm (num_threads : Nat) (st : DecoderStage) (step : DecoderStep) :
    ((decoderStep num_threads st step).splitQ ++ (decoderStep num_threads st step).busy ++
      (decoderStep num_threads st step).mergeQ).Perm (st.splitQ ++ st.busy ++ st.mergeQ) := by
  cases step with
  | pop =>
    by_cases hfree : st.busy.length < num_threads
    · cases hq : st.splitQ with
      | nil => simp [decoderStep, hfree, hq]
      | cons item rest =>
        simp only [decoderStep, hfree, if_true, hq]
        rw [List.perm_iff_count]
        intro a
        simp only [List.count_append, List.count_cons, List.count_nil]
        omega
    · simp [decoderStep, hfree]
  | finish i =>
    cases hd : st.busy.drop i with
    | nil => simp [decoderStep, hd]
    | cons item post =>
      have hbusy : st.busy = st.busy.take i ++ item :: post := by
        rw [← hd, List.take_append_drop]
      simp only [decoderStep, hd]
      rw [List.perm_iff_count]
      intro a
      have hc : List.count a st.busy =
          List.count a (st.busy.take i) + List.count a (item :: post) := by
        conv_lhs => rw [hbusy]
        rw [List.count_append]
      simp only [List.count_append, List.count_cons, List.count_nil] at hc ⊢
      omega

theorem runDecoders_perm (num_threads : Nat) (schedule : List DecoderStep) :
    ∀ st : DecoderStage,
      ((runDecoders num_threads schedule st).splitQ ++
        (runDecoders num_threads schedule st).busy ++
        (runDecoders num_threads schedule st).mergeQ).Perm
        (st.splitQ ++ st.busy ++ st.mergeQ) := by
  induction schedule with
  | nil => intro st; exact List.Perm.refl _
  | cons step rest ih =>
    intro st
    exact (ih (decoderStep num_threads st step)).trans (decoderStep_perm num_threads st step)

theorem writerLoop_eq_flatMap (items : List pipeline_item_t) :
    writerLoop items = items.flatMap (fun item => [.fwrite item.data, .queue_push item]) := by
  induction items with
  | nil => rfl
  | cons item rest ih => simp [writerLoop, ih]

/-- C12: for every interleaving of the decoder threads that decodes every
dispatched item, the items reach the merge queue in some order, and the
writer loop is handed every ticket once, in ascending ticket order: for each
dispatched block in dispatch order it does the `fwrite` of that block's output
and then the `queue_push` of its item on the pool of free buffers, and nothing
else; so every block is written once, in the order `read_thread` dispatched
them, and every buffer is returned once, after its output was written. -/
theorem C12_writer_restores_dispatch_order (num_threads : Nat) (dispatched : List Block)
    (schedule : List DecoderStep)
    (hsplit : (runDecoders num_threads schedule (decoderStart dispatched)).splitQ = [])
    (hbusy : (runDecoders num_threads schedule (decoderStart dispatched)).busy = []) :
    (runDecoders num_threads schedule (decoderStart dispatched)).mergeQ.Perm
      (tickets 0 dispatched) ∧
    pipeline_merged (runDecoders num_threads schedule (decoderStart dispatched)).mergeQ 0 []
      = tickets 0 dispatched ∧
    writerLoop (pipeline_merged
        (runDecoders num_threads schedule (decoderStart dispatched)).mergeQ 0 [])
      = (tickets 0 dispatched).flatMap
          (fun item => [.fwrite item.data, .queue_push item]) ∧
    writtenBlocks (writerLoop (pipeline_merged
        (runDecoders num_threads schedule (decoderStart dispatched)).mergeQ 0 []))
      = dispatched ∧
    releasedAfterWritten [] (writerLoop (pipeline_merged
        (runDecoders num_threads schedule (decoderStart dispatched)).mergeQ 0 [])) = true := by
  have hperm : (runDecoders num_threads schedule (decoderStart dispatched)).mergeQ.Perm
      (tickets 0 dispatched) := by
    have h := runDecoders_perm num_threads schedule (decoderStart dispatched)
    rw [hsplit, hbusy] at h
    simpa [decoderStart] using h
  have h := pipeline_merged_spec _ 0 [] dispatched (by simpa using hperm) (by simp)
  refine ⟨hperm, h, ?_, ?_, releasedAfterWritten_writerLoop _ _⟩
  · rw [h, writerLoop_eq_flatMap]
  · rw [h]
    exact writtenBlocks_writerLoop_tickets 0 dispatched

/-- C12 on the scenario blocks with two decoder threads: B0 and B1 are taken, B1
finishes first, B2 is taken and finishes, B0 finishes last; the items reach
the merge queue as 1, 2, 0 and the blocks are written as B0, B1, B2, each
buffer returned right after its write. -/
theorem C12_writer_restores_dispatch_order_witness :
    (runDecoders 2 [.pop, .pop, .finish 1, .pop, .finish 1, .finish 0]
        (decoderStart [B0, B1, B2])).mergeQ = [⟨1, B1⟩, ⟨2, B2⟩, ⟨0, B0⟩] ∧
    writerLoop (pipeline_merged
        (runDecoders 2 [.pop, .pop, .finish 1, .pop, .finish 1, .finish 0]
          (decoderStart [B0, B1, B2])).mergeQ 0 [])
      = [.fwrite B0, .queue_push ⟨0, B0⟩, .fwrite B1, .queue_push ⟨1, B1⟩,
         .fwrite B2, .queue_push ⟨2, B2⟩] :=
  ⟨by decide,
   (C12_writer_restores_dispatch_order 2 [B0, B1, B2]
      [.pop, .pop, .finish 1, .pop, .finish 1, .finish 0]
      (by decide) (by decide)).2.2.1⟩

end Pread
